import Mathlib

/-!
Verification of the session/history management core of `qachatbot.py`
(stanverse-chatbot).

The development shallowly embeds:

* the JSON value model and the behaviour of Python `json.dump(..., indent=4)`
  (with its default `ensure_ascii=True` escaping) and `json.loads`, since the
  persistence layer (`load_history` / `save_history`) stores the whole
  conversation store as one JSON file;
* the store file state (absent / unreadable / present-with-contents);
* `load_history` and `save_history` (qachatbot.py lines 71-96), including the
  exception paths their `try/except` blocks silently swallow;
* the hydration normalisation loop (lines 132-144);
* the prompt template of `get_chain` (lines 149-181) and the chat-input
  handler (lines 210-256), with the completion stream abstracted as a finite
  list of fragments followed by either success or a raised exception.

Model notes, to keep the embedding honest about its edges:

* JSON numbers are modelled as integers.  A stored file whose text uses a
  float literal (`1.5`, `1e3`) is treated by the model parser as unparseable;
  real `json.loads` would produce a float.  No dumped store ever contains a
  float (messages are role/content string pairs), so this only narrows the
  adversarial corrupt-store space.
* Strings are sequences of Unicode scalar values (Lean `Char`).  A `\uXXXX`
  escape denoting a lone surrogate is treated as a parse failure; real Python
  would produce a lone-surrogate `str`.  `json.dump` never emits lone
  surrogates, so dumped stores are unaffected.
* `HumanMessage`/`AIMessage` content is modelled as a JSON value carried
  verbatim; the library's validation of exotic content shapes is not
  modelled, and all concrete instances in theorems use string contents.
-/

/-! ### JSON values

Mutual inductives (instead of nested `List`) keep every definition in the
file structurally recursive, hence computable by the kernel. -/

mutual
inductive Json where
  | null : Json
  | bool (b : Bool) : Json
  | num (n : Int) : Json
  | str (s : String) : Json
  | arr (elems : JList) : Json
  | obj (fields : JObj) : Json
  deriving DecidableEq, Repr
inductive JList where
  | nil : JList
  | cons (hd : Json) (tl : JList) : JList
  deriving DecidableEq, Repr
inductive JObj where
  | nil : JObj
  | cons (key : String) (val : Json) (tl : JObj) : JObj
  deriving DecidableEq, Repr
end

/-- `k in d` for a Python dict. -/
def JObj.hasKey : JObj → String → Bool
  | .nil, _ => false
  | .cons k _ t, key => k = key || JObj.hasKey t key

/-- `d.get(key)` / `d[key]` lookup for a Python dict. -/
def JObj.lookup : JObj → String → Option Json
  | .nil, _ => none
  | .cons k v t, key => if k = key then some v else JObj.lookup t key

/-- `d[key] = value` on a Python dict: replaces in place, keeping the key's
original position, or appends a new key at the end. -/
def JObj.setKey : JObj → String → Json → JObj
  | .nil, key, value => .cons key value .nil
  | .cons k v t, key, value =>
    if k = key then .cons k value t else .cons k v (JObj.setKey t key value)

def JObj.append : JObj → JObj → JObj
  | .nil, o => o
  | .cons k v t, o => .cons k v (JObj.append t o)

def JObj.keys : JObj → List String
  | .nil => []
  | .cons k _ t => k :: JObj.keys t

/-- `dict(pairs)` (also the incremental dict building of the JSON scanner):
fold the raw key/value pairs into a dict, later values winning. -/
def JObj.foldSet : JObj → JObj → JObj
  | acc, .nil => acc
  | acc, .cons k v rest => JObj.foldSet (JObj.setKey acc k v) rest

def dedupKeys (raw : JObj) : JObj := JObj.foldSet .nil raw

/-! ### Serialisation: `json.dump(store, f, indent=4)` -/

def digitChar (n : Nat) : Char := Char.ofNat (48 + n)

/-- Lowercase hex digit, as CPython's `json` encoder emits. -/
def hexDigitChar (n : Nat) : Char :=
  if n < 10 then Char.ofNat (48 + n) else Char.ofNat (87 + n)

def hex4 (n : Nat) : List Char :=
  [hexDigitChar (n / 4096 % 16), hexDigitChar (n / 256 % 16),
   hexDigitChar (n / 16 % 16), hexDigitChar (n % 16)]

def uEscape (n : Nat) : List Char := '\\' :: 'u' :: hex4 n

/-- One character of a JSON string, escaped as CPython's encoder does with
the default `ensure_ascii=True`: two-character escapes for the usual
specials, `\uXXXX` for other control or non-ASCII characters, surrogate
pairs above `0xFFFF`. -/
def escChar (c : Char) : List Char :=
  if c = '\"' then ['\\', '\"']
  else if c = '\\' then ['\\', '\\']
  else if c = '\n' then ['\\', 'n']
  else if c = '\r' then ['\\', 'r']
  else if c = '\t' then ['\\', 't']
  else if c = '\x08' then ['\\', 'b']
  else if c = '\x0c' then ['\\', 'f']
  else if c.toNat < 0x20 || 0x7e < c.toNat then
    if c.toNat < 0x10000 then uEscape c.toNat
    else uEscape (0xd800 + (c.toNat - 0x10000) / 0x400) ++
         uEscape (0xdc00 + (c.toNat - 0x10000) % 0x400)
  else [c]

def escString : List Char → List Char
  | [] => []
  | c :: cs => escChar c ++ escString cs

def dumpStr (s : String) : List Char := '\"' :: (escString s.data ++ ['\"'])

/-- Decimal digits of a natural number (fuelled to stay structural). -/
def dumpNatAux : Nat → Nat → List Char
  | 0, _ => []
  | f + 1, n => if n < 10 then [digitChar n] else dumpNatAux f (n / 10) ++ [digitChar (n % 10)]

def dumpNat (n : Nat) : List Char := dumpNatAux (n + 1) n

/-- `str(int)`. -/
def dumpInt : Int → List Char
  | .ofNat m => dumpNat m
  | .negSucc m => '-' :: dumpNat (m + 1)

/-- `indent=4` indentation at nesting level `lvl`. -/
def indentChars (lvl : Nat) : List Char := List.replicate (4 * lvl) ' '

mutual
/-- The exact text `json.dump(v, f, indent=4)` writes for `v` at nesting
level `lvl` (default separators `(',', ': ')`; empty containers inline). -/
def dumpVal : Json → Nat → List Char
  | .null, _ => ['n', 'u', 'l', 'l']
  | .bool true, _ => ['t', 'r', 'u', 'e']
  | .bool false, _ => ['f', 'a', 'l', 's', 'e']
  | .num n, _ => dumpInt n
  | .str s, _ => dumpStr s
  | .arr .nil, _ => ['[', ']']
  | .arr (.cons x xs), lvl =>
    '[' :: '\n' :: (indentChars (lvl + 1) ++ dumpVal x (lvl + 1) ++
      dumpElemsRest xs (lvl + 1) ++ '\n' :: (indentChars lvl ++ [']']))
  | .obj .nil, _ => ['\x7b', '\x7d']
  | .obj (.cons k v kvs), lvl =>
    '\x7b' :: '\n' :: (indentChars (lvl + 1) ++ dumpStr k ++ ':' :: ' ' ::
      dumpVal v (lvl + 1) ++ dumpMembersRest kvs (lvl + 1) ++
      '\n' :: (indentChars lvl ++ ['\x7d']))
/-- Second and later array elements, each preceded by `",\n" ++ indent`. -/
def dumpElemsRest : JList → Nat → List Char
  | .nil, _ => []
  | .cons x xs, lvl =>
    ',' :: '\n' :: (indentChars lvl ++ dumpVal x lvl ++ dumpElemsRest xs lvl)
/-- Second and later object members, each preceded by `",\n" ++ indent`. -/
def dumpMembersRest : JObj → Nat → List Char
  | .nil, _ => []
  | .cons k v kvs, lvl =>
    ',' :: '\n' :: (indentChars lvl ++ dumpStr k ++ ':' :: ' ' ::
      dumpVal v lvl ++ dumpMembersRest kvs lvl)
end

/-! ### Parsing: `json.loads` -/

def wsChar (c : Char) : Bool := c = ' ' || c = '\t' || c = '\n' || c = '\r'

def skipWs : List Char → List Char
  | [] => []
  | c :: rest => if wsChar c then skipWs rest else c :: rest

def hexVal (c : Char) : Option Nat :=
  if '0' ≤ c ∧ c ≤ '9' then some (c.toNat - 48)
  else if 'a' ≤ c ∧ c ≤ 'f' then some (c.toNat - 87)
  else if 'A' ≤ c ∧ c ≤ 'F' then some (c.toNat - 55)
  else none

/-- Two-character escapes accepted after a backslash. -/
def escDecode (c : Char) : Option Char :=
  if c = '\"' then some '\"'
  else if c = '\\' then some '\\'
  else if c = '/' then some '/'
  else if c = 'b' then some '\x08'
  else if c = 'f' then some '\x0c'
  else if c = 'n' then some '\n'
  else if c = 'r' then some '\r'
  else if c = 't' then some '\t'
  else none

/-- Four hex digits of a `\uXXXX` escape. -/
def parseHex4chars (h1 h2 h3 h4 : Char) : Option Nat :=
  match hexVal h1, hexVal h2, hexVal h3, hexVal h4 with
  | some a, some b, some c, some d => some (a * 4096 + b * 256 + c * 16 + d)
  | _, _, _, _ => none

/-- Prepend a decoded character to the result of parsing the remainder of
a string literal. -/
def strCons (c : Char) : Option (List Char × List Char) → Option (List Char × List Char)
  | some (s, r) => some (c :: s, r)
  | none => none

mutual
/-- Body of a JSON string literal, after the opening quote: returns the
decoded characters and the input after the closing quote.  Strict mode:
raw control characters are rejected. -/
def parseStrBody : List Char → Option (List Char × List Char)
  | [] => none
  | c :: rest =>
    if c = '\"' then some ([], rest)
    else if c = '\\' then parseEscape rest
    else if c.toNat < 0x20 then none
    else strCons c (parseStrBody rest)
/-- An escape sequence, after the backslash.  Lone-surrogate `\uXXXX`
escapes are rejected (see the model notes). -/
def parseEscape : List Char → Option (List Char × List Char)
  | 'u' :: h1 :: h2 :: h3 :: h4 :: rest2 =>
    match parseHex4chars h1 h2 h3 h4 with
    | some n =>
      if 0xd800 ≤ n ∧ n ≤ 0xdbff then parseLowSurrogate n rest2
      else if 0xdc00 ≤ n ∧ n ≤ 0xdfff then none
      else strCons (Char.ofNat n) (parseStrBody rest2)
    | none => none
  | e :: rest2 =>
    match escDecode e with
    | some d => strCons d (parseStrBody rest2)
    | none => none
  | [] => none
/-- The `\uXXXX` low half of a surrogate pair, given the high half `n`. -/
def parseLowSurrogate : Nat → List Char → Option (List Char × List Char)
  | n, '\\' :: 'u' :: g1 :: g2 :: g3 :: g4 :: rest3 =>
    match parseHex4chars g1 g2 g3 g4 with
    | some m =>
      if 0xdc00 ≤ m ∧ m ≤ 0xdfff then
        strCons (Char.ofNat (0x10000 + (n - 0xd800) * 0x400 + (m - 0xdc00)))
          (parseStrBody rest3)
      else none
    | none => none
  | _, _ => none
end

def spanDigits : List Char → List Char × List Char
  | [] => ([], [])
  | c :: rest =>
    if c.isDigit then
      let (d, r) := spanDigits rest
      (c :: d, r)
    else ([], c :: rest)

def digitsToNat (acc : Nat) : List Char → Nat
  | [] => acc
  | c :: rest => digitsToNat (acc * 10 + (c.toNat - 48)) rest

/-- JSON number token: `-? (0 | [1-9][0-9]*)`, integers only (a following
`.`/`e`/`E` would make a float, which the model treats as unparseable). -/
def parseNumBody (neg : Bool) (input : List Char) : Option (Json × List Char) :=
  match input with
  | [] => none
  | c :: rest =>
    if c = '0' then
      match rest with
      | d :: _ =>
        if d = '.' ∨ d = 'e' ∨ d = 'E' then none
        else some (.num 0, rest)
      | [] => some (.num 0, rest)
    else if c.isDigit then
      let (ds, r) := spanDigits rest
      match r with
      | d :: _ =>
        if d = '.' ∨ d = 'e' ∨ d = 'E' then none
        else
          let v : Int := Int.ofNat (digitsToNat (c.toNat - 48) ds)
          some (.num (if neg then -v else v), r)
      | [] =>
        let v : Int := Int.ofNat (digitsToNat (c.toNat - 48) ds)
        some (.num (if neg then -v else v), r)
    else none

/-- Wrap a parsed string literal as a JSON value. -/
def jsonStrResult : Option (List Char × List Char) → Option (Json × List Char)
  | some (s, r2) => some (.str (String.mk s), r2)
  | none => none

/-- Wrap a parsed raw member list as a JSON object, building the dict with
later duplicate keys winning, as the CPython scanner does. -/
def objResult : Option (JObj × List Char) → Option (Json × List Char)
  | some (raw, r2) => some (.obj (dedupKeys raw), r2)
  | none => none

def arrResult : Option (JList × List Char) → Option (Json × List Char)
  | some (elems, r2) => some (.arr elems, r2)
  | none => none

/-- Prepend a parsed member to the rest of the members. -/
def memberResult (k : String) (v : Json) :
    Option (JObj × List Char) → Option (JObj × List Char)
  | some (more, r5) => some (.cons k v more, r5)
  | none => none

/-- Prepend a parsed element to the rest of the elements. -/
def elemResult (v : Json) : Option (JList × List Char) → Option (JList × List Char)
  | some (more, r3) => some (.cons v more, r3)
  | none => none

mutual
/-- One JSON value, leading whitespace allowed, mirroring the CPython
scanner.  Fuelled; `loads` supplies more fuel than any input can use. -/
def parseVal : Nat → List Char → Option (Json × List Char)
  | 0, _ => none
  | f + 1, input =>
    match skipWs input with
    | [] => none
    | 'n' :: 'u' :: 'l' :: 'l' :: r => some (.null, r)
    | 't' :: 'r' :: 'u' :: 'e' :: r => some (.bool true, r)
    | 'f' :: 'a' :: 'l' :: 's' :: 'e' :: r => some (.bool false, r)
    | '\"' :: r => jsonStrResult (parseStrBody r)
    | '\x7b' :: r => objResult (parseObjBody f r)
    | '[' :: r => arrResult (parseArrBody f r)
    | '-' :: r => parseNumBody true r
    | c :: r => if c.isDigit then parseNumBody false (c :: r) else none
/-- Object body after the opening brace: empty object or first member. -/
def parseObjBody : Nat → List Char → Option (JObj × List Char)
  | 0, _ => none
  | f + 1, input =>
    match skipWs input with
    | '\x7d' :: r => some (.nil, r)
    | '\"' :: r => parseMemberKey f (parseStrBody r)
    | _ => none
/-- After a member key string: expect a colon, then the member value. -/
def parseMemberKey : Nat → Option (List Char × List Char) → Option (JObj × List Char)
  | _, none => none
  | 0, some _ => none
  | f + 1, some (k, r2) =>
    match skipWs r2 with
    | ':' :: r3 => parseMemberValue f (String.mk k) (parseVal f r3)
    | _ => none
/-- After a member value: the remaining members. -/
def parseMemberValue : Nat → String → Option (Json × List Char) → Option (JObj × List Char)
  | _, _, none => none
  | 0, _, some _ => none
  | f + 1, k, some (v, r4) => memberResult k v (parseMembersRest f r4)
/-- After a member: a comma and another member, or the closing brace. -/
def parseMembersRest : Nat → List Char → Option (JObj × List Char)
  | 0, _ => none
  | f + 1, input =>
    match skipWs input with
    | '\x7d' :: r => some (.nil, r)
    | ',' :: r =>
      match skipWs r with
      | '\"' :: r1 => parseMemberKey f (parseStrBody r1)
      | _ => none
    | _ => none
/-- Array body after the opening bracket: empty array or first element. -/
def parseArrBody : Nat → List Char → Option (JList × List Char)
  | 0, _ => none
  | f + 1, input =>
    match skipWs input with
    | ']' :: r => some (.nil, r)
    | _ => parseElemValue f (parseVal f input)
/-- After an element value: the remaining elements. -/
def parseElemValue : Nat → Option (Json × List Char) → Option (JList × List Char)
  | _, none => none
  | 0, some _ => none
  | f + 1, some (v, r2) => elemResult v (parseElemsRest f r2)
/-- After an element: a comma and another element, or the closing bracket. -/
def parseElemsRest : Nat → List Char → Option (JList × List Char)
  | 0, _ => none
  | f + 1, input =>
    match skipWs input with
    | ']' :: r => some (.nil, r)
    | ',' :: r => parseElemValue f (parseVal f r)
    | _ => none
end

/-- `json.loads`: parse one value, allow surrounding whitespace, reject
trailing garbage ("Extra data"); `none` models a raised exception. -/
def loads (s : List Char) : Option Json :=
  match parseVal (s.length + 1) s with
  | some (j, rest) => if skipWs rest = [] then some j else none
  | none => none

/-! ### The persistence layer (qachatbot.py lines 66-96) -/

/-- Fixed single-tenant user key (line 18). -/
def USER_ID : String := "aks_jaiswal_user_12345"

/-- State of `stanverse_chat_history.json` as the process can observe it. -/
inductive FileState where
  | absent : FileState
  | unreadable : FileState
  | file (contents : List Char) : FileState
  deriving DecidableEq, Repr

inductive PyErr where
  | keyError (key : String)
  | jsonDecodeError
  | attributeError
  | typeError
  | oserror
  deriving DecidableEq, Repr

/-- The body of `load_history`'s `try` block (lines 73-76): what it returns,
or which exception it raises.  `.get` on a non-dict raises
`AttributeError`; an unparseable file raises `JSONDecodeError`. -/
def load_history_attempt (fs : FileState) : Except PyErr Json :=
  match fs with
  | .absent => .ok (Json.arr .nil)
  | .unreadable => .error .oserror
  | .file contents =>
    match loads contents with
    | none => .error .jsonDecodeError
    | some (.obj kvs) => .ok ((kvs.lookup USER_ID).getD (Json.arr .nil))
    | some _ => .error .attributeError

/-- `load_history` (lines 71-79): the `except Exception: pass` turns every
failure into the empty history `[]`. -/
def load_history (fs : FileState) : Json :=
  match load_history_attempt fs with
  | .ok j => j
  | .error _ => Json.arr .nil

/-- `save_history(messages)` (lines 82-96): read-modify-write of the whole
store.  If reading or updating the existing store raises (corrupt JSON, or
a non-dict top level making `all_histories[USER_ID] = ...` a `TypeError`),
the `except` swallows it and nothing is written. -/
def save_history (messages : Json) (fs : FileState) : FileState :=
  match fs with
  | .absent => .file (dumpVal (Json.obj (JObj.setKey .nil USER_ID messages)) 0)
  | .unreadable => fs
  | .file contents =>
    match loads contents with
    | some (.obj kvs) => .file (dumpVal (Json.obj (kvs.setKey USER_ID messages)) 0)
    | _ => fs

example : loads (dumpVal (Json.obj (JObj.cons "a" (Json.num 12) .nil)) 0) =
    some (Json.obj (JObj.cons "a" (Json.num 12) .nil)) := by decide

/-! ### Session state and hydration (qachatbot.py lines 130-144) -/

/-- LangChain message objects held in `st.session_state.messages`.  Content
is the JSON value handed to the constructor, carried verbatim. -/
inductive LCMessage where
  | human (content : Json) : LCMessage
  | ai (content : Json) : LCMessage
  deriving DecidableEq, Repr

/-- One iteration of the normalisation loop (lines 136-143) on an element
loaded from storage (so always a JSON value, never an `isinstance` match
for the LangChain branch): a dict is converted according to its `'role'`
(raising `KeyError` on a missing `'role'`, or on a missing `'content'`
when the role matches); a dict with any other role, and any non-dict
element, falls through every branch and is silently dropped. -/
def cleanStep (msg : Json) : Except PyErr (Option LCMessage) :=
  match msg with
  | .obj kvs =>
    match kvs.lookup "role" with
    | none => .error (.keyError "role")
    | some r =>
      if r = .str "user" then
        match kvs.lookup "content" with
        | none => .error (.keyError "content")
        | some c => .ok (some (.human c))
      else if r = .str "assistant" then
        match kvs.lookup "content" with
        | none => .error (.keyError "content")
        | some c => .ok (some (.ai c))
      else .ok none
  | _ => .ok none

/-- The whole normalisation loop building `cleaned_messages` (lines
135-144), over the list loaded from storage. -/
def cleaned_messages : JList → Except PyErr (List LCMessage)
  | .nil => .ok []
  | .cons m rest =>
    match cleanStep m with
    | .error e => .error e
    | .ok none => cleaned_messages rest
    | .ok (some lm) =>
      match cleaned_messages rest with
      | .error e => .error e
      | .ok tl => .ok (lm :: tl)

/-! ### Prompt assembly (qachatbot.py lines 149-185) -/

/-- The static system instruction of `get_chain` (lines 162-168). -/
def system_prompt : String :=
  "You are Stanverse, a highly conversational, friendly, and supportive AI powered by Groq. " ++
  "You have access to the user\x27s previous conversation history. Use this history to adapt your tone, " ++
  "remember preferences, and ensure a human-like, authentic dialogue. " ++
  "Engage in natural, human-like dialogue, using a warm, encouraging tone. " ++
  "Keep responses engaging and easy to read. DO NOT break character or mention you are an AI model."

/-- One piece of the `ChatPromptTemplate.from_messages` list (lines
171-176). -/
inductive PromptPiece where
  | system (content : String) : PromptPiece
  | placeholderHistory : PromptPiece
  | user (template : String) : PromptPiece
  deriving DecidableEq, Repr

def prompt_template : List PromptPiece :=
  [.system system_prompt, .placeholderHistory, .user "{question}"]

/-- A message of the rendered model-facing prompt. -/
inductive ChatMsg where
  | system (content : String) : ChatMsg
  | human (content : Json) : ChatMsg
  | ai (content : Json) : ChatMsg
  deriving DecidableEq, Repr

def toChatMsg : LCMessage → ChatMsg
  | .human c => .human c
  | .ai c => .ai c

/-- Rendering the template against `{"question": question, "history":
history}` (the invocation at lines 234-237): the placeholder expands to the
history messages as they are, and the `"{question}"` template formats to
the submitted utterance. -/
def renderTemplate (history : List LCMessage) (question : String) : List ChatMsg :=
  prompt_template.flatMap fun piece =>
    match piece with
    | .system s => [ChatMsg.system s]
    | .placeholderHistory => history.map toChatMsg
    | .user _ => [ChatMsg.human (Json.str question)]

/-! ### The chat-input handler (qachatbot.py lines 210-256) -/

/-- How one consumption of `chain.stream(...)` goes: the fragments arrive
in order and the stream either finishes or raises after the listed
fragments. -/
inductive StreamOutcome where
  | success (chunks : List String) : StreamOutcome
  | failure (chunksBeforeError : List String) : StreamOutcome
  deriving DecidableEq, Repr

/-- `full_response` accumulation (lines 230-238): `+=` over the fragments
in arrival order. -/
def full_response (chunks : List String) : String :=
  chunks.foldl (fun acc c => acc ++ c) ""

/-- Line 225: `st.session_state.messages[:-1]`. -/
def history_for_llm (messages : List LCMessage) : List LCMessage :=
  messages.dropLast

/-- Line 250: serialising one LangChain message back to a role/content
dict. -/
def serializeMsg : LCMessage → Json
  | .human c => .obj (.cons "role" (.str "user") (.cons "content" c .nil))
  | .ai c => .obj (.cons "role" (.str "assistant") (.cons "content" c .nil))

def toJList : List Json → JList
  | [] => .nil
  | j :: rest => .cons j (toJList rest)

/-- Lines 249-252: `serializable_messages`. -/
def serializable_messages (messages : List LCMessage) : Json :=
  .arr (toJList (messages.map serializeMsg))

/-- Result of one run of the chat-input handler. -/
structure StepResult where
  messages : List LCMessage
  store : FileState
  promptSent : List ChatMsg
  deriving DecidableEq, Repr

/-- The chat-input handler (lines 210-256) for a submitted `question`:

1. append `HumanMessage(question)` to the session state (line 216);
2. build the prompt from the state minus the just-appended turn
   (lines 225, 234-237);
3. consume the stream: on success append `AIMessage(full_response)` and
   call `save_history` on the re-serialised state (lines 243-253); if the
   stream raises, the `except` (lines 255-256) leaves the session state
   with only the user turn and the store untouched. -/
def handle_input (question : String) (outcome : StreamOutcome)
    (messages : List LCMessage) (fs : FileState) : StepResult :=
  let messages1 := messages ++ [LCMessage.human (Json.str question)]
  let prompt := renderTemplate (history_for_llm messages1) question
  match outcome with
  | .success chunks =>
    let messages2 := messages1 ++ [LCMessage.ai (Json.str (full_response chunks))]
    { messages := messages2
      store := save_history (serializable_messages messages2) fs
      promptSent := prompt }
  | .failure _ =>
    { messages := messages1, store := fs, promptSent := prompt }

/-- The clear-button handler (lines 124-128): empty the session state and
persist the empty history. -/
def clear_chat (_messages : List LCMessage) (fs : FileState) :
    List LCMessage × FileState :=
  ([], save_history (Json.arr .nil) fs)

example :
    (handle_input "Hello" (.success ["Hi", " there!"]) [] .absent).messages =
      [.human (.str "Hello"), .ai (.str "Hi there!")] := by decide

set_option maxRecDepth 100000 in
example :
    load_history (handle_input "Hello" (.success ["Hi", " there!"]) [] .absent).store =
      serializable_messages [.human (.str "Hello"), .ai (.str "Hi there!")] := by decide

/-! ### Whitespace and character basics -/

def allWs : List Char → Bool
  | [] => true
  | c :: rest => wsChar c && allWs rest

theorem skipWs_append_of_allWs {w : List Char} (h : allWs w = true) (l : List Char) :
    skipWs (w ++ l) = skipWs l := by
  induction w with
  | nil => rfl
  | cons c t ih =>
    rw [allWs, Bool.and_eq_true] at h
    simp only [List.cons_append, skipWs, h.1, if_true]
    exact ih h.2

theorem skipWs_not_ws {c : Char} (h : wsChar c = false) (l : List Char) :
    skipWs (c :: l) = c :: l := by
  simp [skipWs, h]

theorem allWs_replicate_space (n : Nat) : allWs (List.replicate n ' ') = true := by
  induction n with
  | zero => rfl
  | succ m ih => simpa [List.replicate_succ, allWs, wsChar] using ih

theorem allWs_indentChars (lvl : Nat) : allWs (indentChars lvl) = true :=
  allWs_replicate_space _

theorem allWs_append {a b : List Char} (ha : allWs a = true) (hb : allWs b = true) :
    allWs (a ++ b) = true := by
  induction a with
  | nil => exact hb
  | cons c t ih =>
    rw [allWs, Bool.and_eq_true] at ha
    simpa [allWs, ha.1] using ih ha.2

theorem toNat_ofNat_valid {n : Nat} (h : Nat.isValidChar n) : (Char.ofNat n).toNat = n := by
  simp [Char.ofNat, h]
  rfl

theorem char_valid_ranges (c : Char) :
    c.toNat < 0xd800 ∨ (0xe000 ≤ c.toNat ∧ c.toNat < 0x110000) := by
  have h := c.valid
  rcases h with h | h
  · left; exact h
  · right; exact h

/-! ### Decimal digits -/

theorem digitChar_toNat : ∀ n < 10, (digitChar n).toNat = 48 + n := by decide

theorem digitChar_isDigit : ∀ n < 10, (digitChar n).isDigit = true := by decide

theorem digitChar_eq_zero_iff : ∀ n < 10, (digitChar n = '0' ↔ n = 0) := by decide

theorem dumpNatAux_ne_nil {f n : Nat} (h : n < f) : dumpNatAux f n ≠ [] := by
  cases f with
  | zero => omega
  | succ f =>
    rw [dumpNatAux]
    split <;> simp

theorem dumpNatAux_all_digits {f n : Nat} (h : n < f) :
    ∀ c ∈ dumpNatAux f n, c.isDigit = true := by
  induction f generalizing n with
  | zero => omega
  | succ f ih =>
    rw [dumpNatAux]
    split
    · rename_i h10
      intro c hc
      simp only [List.mem_singleton] at hc
      subst hc
      exact digitChar_isDigit n h10
    · rename_i h10
      intro c hc
      rw [List.mem_append] at hc
      rcases hc with hc | hc
      · exact ih (by omega) c hc
      · simp only [List.mem_singleton] at hc
        subst hc
        exact digitChar_isDigit (n % 10) (by omega)

theorem digitsToNat_append (acc : Nat) (l1 l2 : List Char) :
    digitsToNat acc (l1 ++ l2) = digitsToNat (digitsToNat acc l1) l2 := by
  induction l1 generalizing acc with
  | nil => rfl
  | cons c t ih =>
    show digitsToNat (acc * 10 + (c.toNat - 48)) (t ++ l2) =
      digitsToNat (digitsToNat (acc * 10 + (c.toNat - 48)) t) l2
    exact ih _

theorem dumpNatAux_value {f n : Nat} (h : n < f) (acc : Nat) :
    digitsToNat acc (dumpNatAux f n) = acc * 10 ^ (dumpNatAux f n).length + n := by
  induction f generalizing n acc with
  | zero => omega
  | succ f ih =>
    rw [dumpNatAux]
    split
    · rename_i h10
      show acc * 10 + ((digitChar n).toNat - 48) =
        acc * 10 ^ ([digitChar n]).length + n
      rw [digitChar_toNat n h10, List.length_singleton, pow_one]
      omega
    · rename_i h10
      have hdiv : n / 10 < f := by omega
      rw [digitsToNat_append, ih hdiv, List.length_append]
      show (acc * 10 ^ (dumpNatAux f (n / 10)).length + n / 10) * 10 +
          ((digitChar (n % 10)).toNat - 48) =
        acc * 10 ^ ((dumpNatAux f (n / 10)).length + [digitChar (n % 10)].length) + n
      rw [digitChar_toNat _ (show n % 10 < 10 by omega), List.length_singleton,
        pow_succ, ← mul_assoc]
      generalize acc * 10 ^ (dumpNatAux f (n / 10)).length = Q
      omega

theorem dumpNat_value (n : Nat) : digitsToNat 0 (dumpNat n) = n := by
  have h := dumpNatAux_value (Nat.lt_succ_self n) 0
  rw [dumpNat, h]
  generalize (dumpNatAux (n + 1) n).length = L
  omega

theorem dumpNatAux_head_zero {f n : Nat} {t : List Char} (h : n < f)
    (he : dumpNatAux f n = '0' :: t) : n = 0 ∧ t = [] := by
  induction f generalizing n t with
  | zero => omega
  | succ f ih =>
    rw [dumpNatAux] at he
    split at he
    · rename_i h10
      rw [List.cons.injEq] at he
      obtain ⟨h1, h2⟩ := he
      exact ⟨(digitChar_eq_zero_iff n h10).mp h1, h2.symm⟩
    · rename_i h10
      have hne := dumpNatAux_ne_nil (show n / 10 < f by omega)
      obtain ⟨c0, t0, hct⟩ := List.exists_cons_of_ne_nil hne
      rw [hct, List.cons_append, List.cons.injEq] at he
      obtain ⟨h1, _⟩ := he
      subst h1
      have := (ih (show n / 10 < f by omega) hct.symm.symm).1
      · omega

/-! ### Number tokens -/

/-- The character after a serialised number must not extend the token. -/
def numStop : List Char → Bool
  | [] => true
  | c :: _ => !(c.isDigit || c = '.' || c = 'e' || c = 'E')

def notDigitHead : List Char → Bool
  | [] => true
  | c :: _ => !c.isDigit

theorem numStop_head {d : Char} {tl : List Char} (h : numStop (d :: tl) = true) :
    d.isDigit = false ∧ d ≠ '.' ∧ d ≠ 'e' ∧ d ≠ 'E' := by
  rw [numStop, Bool.not_eq_true'] at h
  simp only [Bool.or_eq_false_iff, decide_eq_false_iff_not] at h
  exact ⟨h.1.1.1, h.1.1.2, h.1.2, h.2⟩

theorem notDigitHead_of_numStop {l : List Char} (h : numStop l = true) :
    notDigitHead l = true := by
  cases l with
  | nil => rfl
  | cons c t =>
    rw [notDigitHead, Bool.not_eq_true']
    exact (numStop_head h).1

theorem wsChar_false_of_isDigit {c : Char} (h : c.isDigit = true) : wsChar c = false := by
  rcases Bool.eq_false_or_eq_true (wsChar c) with hw | hw
  · rw [wsChar] at hw
    simp only [Bool.or_eq_true, decide_eq_true_eq] at hw
    rcases hw with ((rfl | rfl) | rfl) | rfl <;> simp at h
  · exact hw

theorem spanDigits_append {ds rest : List Char} (hd : ∀ c ∈ ds, c.isDigit = true)
    (hr : notDigitHead rest = true) : spanDigits (ds ++ rest) = (ds, rest) := by
  induction ds with
  | nil =>
    cases rest with
    | nil => rfl
    | cons c t =>
      rw [notDigitHead, Bool.not_eq_true'] at hr
      simp [spanDigits, hr]
  | cons d t ih =>
    have hd0 : d.isDigit = true := hd d (by simp)
    have ht : ∀ c ∈ t, c.isDigit = true := fun c hc => hd c (by simp [hc])
    rw [List.cons_append, spanDigits, hd0]
    simp [ih ht]

theorem dumpNat_head_value {n : Nat} {c : Char} {ds : List Char} (h : dumpNat n = c :: ds) :
    digitsToNat (c.toNat - 48) ds = n := by
  have hv := dumpNat_value n
  rw [h] at hv
  rw [show digitsToNat 0 (c :: ds) = digitsToNat (0 * 10 + (c.toNat - 48)) ds from rfl] at hv
  simpa using hv

theorem parseNumBody_dumpNat {n : Nat} {rest : List Char} (neg : Bool)
    (hr : numStop rest = true) :
    parseNumBody neg (dumpNat n ++ rest) =
      some (.num (if neg then -(Int.ofNat n) else Int.ofNat n), rest) := by
  by_cases h0 : n = 0
  · subst h0
    show parseNumBody neg ('0' :: rest) = _
    cases rest with
    | nil => cases neg <;> simp [parseNumBody]
    | cons d tl =>
      obtain ⟨hd1, hd2, hd3, hd4⟩ := numStop_head hr
      have hnot : ¬(d = '.' ∨ d = 'e' ∨ d = 'E') := by
        rintro (rfl | rfl | rfl) <;> simp_all
      cases neg <;> simp [parseNumBody, hnot]
  · obtain ⟨c, ds, hcd⟩ := List.exists_cons_of_ne_nil
      (show dumpNat n ≠ [] from dumpNatAux_ne_nil (Nat.lt_succ_self n))
    have hdig : ∀ x ∈ c :: ds, x.isDigit = true := by
      rw [← hcd]
      exact dumpNatAux_all_digits (Nat.lt_succ_self n)
    have hc : c.isDigit = true := hdig c (by simp)
    have hc0 : c ≠ '0' := by
      intro he
      subst he
      exact h0 (dumpNatAux_head_zero (Nat.lt_succ_self n) hcd).1
    have ht : ∀ x ∈ ds, x.isDigit = true := fun x hx => hdig x (by simp [hx])
    have hspan : spanDigits (ds ++ rest) = (ds, rest) :=
      spanDigits_append ht (notDigitHead_of_numStop hr)
    rw [hcd, List.cons_append]
    cases rest with
    | nil =>
      rw [List.append_nil] at hspan
      simp [parseNumBody, hc0, hc, hspan, dumpNat_head_value hcd]
    | cons d tl =>
      obtain ⟨hd1, hd2, hd3, hd4⟩ := numStop_head hr
      have hnot : ¬(d = '.' ∨ d = 'e' ∨ d = 'E') := by
        rintro (rfl | rfl | rfl) <;> simp_all
      simp [parseNumBody, hc0, hc, hspan, hnot, dumpNat_head_value hcd]

theorem parseVal_neg_head (f : Nat) (l : List Char) :
    parseVal (f + 1) ('-' :: l) = parseNumBody true l := rfl

theorem parseVal_digit_head {f : Nat} {c : Char} {l : List Char} (h : c.isDigit = true) :
    parseVal (f + 1) (c :: l) = parseNumBody false (c :: l) := by
  have hws : wsChar c = false := wsChar_false_of_isDigit h
  have hsk : skipWs (c :: l) = c :: l := skipWs_not_ws hws l
  rw [parseVal, hsk]
  have hn : c ≠ 'n' := by rintro rfl; simp at h
  have htt : c ≠ 't' := by rintro rfl; simp at h
  have hf : c ≠ 'f' := by rintro rfl; simp at h
  have hq : c ≠ '\"' := by rintro rfl; simp at h
  have hb : c ≠ '\x7b' := by rintro rfl; simp at h
  have hk : c ≠ '[' := by rintro rfl; simp at h
  have hm : c ≠ '-' := by rintro rfl; simp at h
  split
  · simp_all
  · rename_i heq; rw [List.cons.injEq] at heq; exact absurd heq.1 hn
  · rename_i heq; rw [List.cons.injEq] at heq; exact absurd heq.1 htt
  · rename_i heq; rw [List.cons.injEq] at heq; exact absurd heq.1 hf
  · rename_i heq; rw [List.cons.injEq] at heq; exact absurd heq.1 hq
  · rename_i heq; rw [List.cons.injEq] at heq; exact absurd heq.1 hb
  · rename_i heq; rw [List.cons.injEq] at heq; exact absurd heq.1 hk
  · rename_i heq; rw [List.cons.injEq] at heq; exact absurd heq.1 hm
  · rename_i c2 r2 heq
    rw [List.cons.injEq] at heq
    obtain ⟨h1, h2⟩ := heq
    subst h1; subst h2
    simp [h]

theorem parseVal_dumpInt {f : Nat} {m : Int} {rest : List Char} (hr : numStop rest = true) :
    parseVal (f + 1) (dumpInt m ++ rest) = some (.num m, rest) := by
  cases m with
  | ofNat n =>
    obtain ⟨c, ds, hcd⟩ := List.exists_cons_of_ne_nil
      (show dumpNat n ≠ [] from dumpNatAux_ne_nil (Nat.lt_succ_self n))
    have hc : c.isDigit = true :=
      dumpNatAux_all_digits (Nat.lt_succ_self n) c
        (by rw [show dumpNatAux (n + 1) n = c :: ds from hcd]; simp)
    show parseVal (f + 1) (dumpNat n ++ rest) = _
    rw [hcd, List.cons_append, parseVal_digit_head hc, ← List.cons_append, ← hcd]
    rw [parseNumBody_dumpNat false hr]
    simp
  | negSucc n =>
    show parseVal (f + 1) (('-' :: dumpNat (n + 1)) ++ rest) = _
    rw [List.cons_append, parseVal_neg_head, parseNumBody_dumpNat true hr]
    simp [Int.negSucc_eq]

/-! ### String literals: escape/parse roundtrip -/

theorem hexVal_hexDigitChar : ∀ m < 16, hexVal (hexDigitChar m) = some m := by decide

theorem isValidChar_toNat (c : Char) : Nat.isValidChar c.toNat := by
  rcases char_valid_ranges c with h | h
  · exact Or.inl h
  · exact Or.inr ⟨by omega, h.2⟩


theorem parseHex4chars_hex4 {n : Nat} (h : n < 0x10000) :
    parseHex4chars (hexDigitChar (n / 4096 % 16)) (hexDigitChar (n / 256 % 16))
      (hexDigitChar (n / 16 % 16)) (hexDigitChar (n % 16)) = some n := by
  rw [parseHex4chars, hexVal_hexDigitChar _ (show n / 4096 % 16 < 16 by omega),
    hexVal_hexDigitChar _ (show n / 256 % 16 < 16 by omega),
    hexVal_hexDigitChar _ (show n / 16 % 16 < 16 by omega),
    hexVal_hexDigitChar _ (show n % 16 < 16 by omega)]
  have harith : n / 4096 % 16 * 4096 + n / 256 % 16 * 256 + n / 16 % 16 * 16 + n % 16 = n := by
    omega
  simp [harith]

theorem parseEscape_u {h1 h2 h3 h4 : Char} {n : Nat} {x : List Char}
    (hp : parseHex4chars h1 h2 h3 h4 = some n)
    (hno1 : ¬(0xd800 ≤ n ∧ n ≤ 0xdbff)) (hno2 : ¬(0xdc00 ≤ n ∧ n ≤ 0xdfff)) :
    parseEscape ('u' :: h1 :: h2 :: h3 :: h4 :: x) =
      strCons (Char.ofNat n) (parseStrBody x) := by
  rw [parseEscape, hp]
  simp only [hno1, if_false, hno2]

theorem parseEscape_u_pair {h1 h2 h3 h4 g1 g2 g3 g4 : Char} {n m : Nat} {x : List Char}
    (hp : parseHex4chars h1 h2 h3 h4 = some n) (hq : parseHex4chars g1 g2 g3 g4 = some m)
    (hn : 0xd800 ≤ n ∧ n ≤ 0xdbff) (hm : 0xdc00 ≤ m ∧ m ≤ 0xdfff) :
    parseEscape ('u' :: h1 :: h2 :: h3 :: h4 :: '\\' :: 'u' :: g1 :: g2 :: g3 :: g4 :: x) =
      strCons (Char.ofNat (0x10000 + (n - 0xd800) * 0x400 + (m - 0xdc00)))
        (parseStrBody x) := by
  rw [parseEscape, hp]
  dsimp only
  rw [if_pos hn, parseLowSurrogate, hq]
  dsimp only
  rw [if_pos hm]

theorem parseStrBody_backslash (r : List Char) :
    parseStrBody ('\\' :: r) = parseEscape r := rfl

theorem parseStrBody_quote (r : List Char) :
    parseStrBody ('\"' :: r) = some ([], r) := rfl

theorem parseStrBody_literal {c : Char} (h1 : c ≠ '\"') (h2 : c ≠ '\\')
    (h3 : ¬c.toNat < 0x20) (x : List Char) :
    parseStrBody (c :: x) = strCons c (parseStrBody x) := by
  rw [parseStrBody, if_neg h1, if_neg h2, if_neg h3]

/-- The escaped form of one character always parses back to that
character. -/
theorem parseStrBody_escChar (c : Char) (x : List Char) :
    parseStrBody (escChar c ++ x) = strCons c (parseStrBody x) := by
  by_cases h1 : c = '\"'
  · subst h1; rfl
  · by_cases h2 : c = '\\'
    · subst h2; rfl
    · by_cases h3 : c = '\n'
      · subst h3; rfl
      · by_cases h4 : c = '\r'
        · subst h4; rfl
        · by_cases h5 : c = '\t'
          · subst h5; rfl
          · by_cases h6 : c = '\x08'
            · subst h6; rfl
            · by_cases h7 : c = '\x0c'
              · subst h7; rfl
              · by_cases h8 : c.toNat < 0x20 ∨ 0x7e < c.toNat
                · have hb : (decide (c.toNat < 0x20) || decide (0x7e < c.toNat)) = true := by
                    simp only [Bool.or_eq_true, decide_eq_true_eq]
                    exact h8
                  have hesc : escChar c =
                      if c.toNat < 0x10000 then uEscape c.toNat
                      else uEscape (0xd800 + (c.toNat - 0x10000) / 0x400) ++
                        uEscape (0xdc00 + (c.toNat - 0x10000) % 0x400) := by
                    rw [escChar, if_neg h1, if_neg h2, if_neg h3, if_neg h4, if_neg h5,
                      if_neg h6, if_neg h7, hb]
                    simp
                  by_cases hlow : c.toNat < 0x10000
                  · rw [hesc, if_pos hlow]
                    show parseStrBody ('\\' :: 'u' :: hexDigitChar (c.toNat / 4096 % 16) ::
                      hexDigitChar (c.toNat / 256 % 16) :: hexDigitChar (c.toNat / 16 % 16) ::
                      hexDigitChar (c.toNat % 16) :: x) = _
                    rw [parseStrBody_backslash]
                    have hv := isValidChar_toNat c
                    have hno1 : ¬(0xd800 ≤ c.toNat ∧ c.toNat ≤ 0xdbff) := by
                      rcases hv with h | h <;> omega
                    have hno2 : ¬(0xdc00 ≤ c.toNat ∧ c.toNat ≤ 0xdfff) := by
                      rcases hv with h | h <;> omega
                    rw [parseEscape_u (parseHex4chars_hex4 hlow) hno1 hno2, Char.ofNat_toNat]
                  · rw [hesc, if_neg hlow]
                    have hv := isValidChar_toNat c
                    have ht : 0x10000 ≤ c.toNat ∧ c.toNat < 0x110000 := by
                      rcases hv with h | h <;> omega
                    have hhi : (0xd800 + (c.toNat - 0x10000) / 0x400) < 0x10000 := by omega
                    have hlo : (0xdc00 + (c.toNat - 0x10000) % 0x400) < 0x10000 := by omega
                    rw [List.append_assoc]
                    show parseStrBody ('\\' :: 'u' :: _ :: _ :: _ :: _ ::
                      ('\\' :: 'u' :: _ :: _ :: _ :: _ :: x)) = _
                    rw [parseStrBody_backslash]
                    rw [parseEscape_u_pair (parseHex4chars_hex4 hhi) (parseHex4chars_hex4 hlo)
                      (by omega) (by omega)]
                    have harith : 0x10000 +
                        (0xd800 + (c.toNat - 0x10000) / 0x400 - 0xd800) * 0x400 +
                        (0xdc00 + (c.toNat - 0x10000) % 0x400 - 0xdc00) = c.toNat := by
                      omega
                    rw [harith, Char.ofNat_toNat]
                · push_neg at h8
                  have ha : ¬c.toNat < 0x20 := by omega
                  have hesc : escChar c = [c] := by
                    have hb : (decide (c.toNat < 0x20) || decide (0x7e < c.toNat)) = false := by
                      simp only [Bool.or_eq_false_iff, decide_eq_false_iff_not]
                      omega
                    rw [escChar, if_neg h1, if_neg h2, if_neg h3, if_neg h4, if_neg h5,
                      if_neg h6, if_neg h7, hb]
                    simp
                  rw [hesc, List.cons_append, List.nil_append,
                    parseStrBody_literal h1 h2 ha]

/-- A whole escaped string followed by the closing quote parses back to the
original characters. -/
theorem parseStrBody_escString (l : List Char) (r : List Char) :
    parseStrBody (escString l ++ '\"' :: r) = some (l, r) := by
  induction l with
  | nil => rfl
  | cons c t ih =>
    rw [escString, List.append_assoc, parseStrBody_escChar, ih]
    rfl

/-! ### Well-formed JSON values: recursively duplicate-free object keys -/

def keysUnique : JObj → Bool
  | .nil => true
  | .cons k _ t => !(JObj.hasKey t k) && keysUnique t

mutual
def jsonWF : Json → Bool
  | .null => true
  | .bool _ => true
  | .num _ => true
  | .str _ => true
  | .arr xs => jlistWF xs
  | .obj kvs => keysUnique kvs && jobjWF kvs
def jlistWF : JList → Bool
  | .nil => true
  | .cons x xs => jsonWF x && jlistWF xs
def jobjWF : JObj → Bool
  | .nil => true
  | .cons _ v t => jsonWF v && jobjWF t
end

/-! ### Dict lemmas

(`induction` does not apply to mutual inductives, so spine inductions over
`JObj`/`JList` are written as structurally recursive theorems.) -/

theorem JObj.append_nil (o : JObj) : o.append .nil = o := by
  cases o with
  | nil => rfl
  | cons k v t => rw [JObj.append, JObj.append_nil t]

theorem JObj.append_assoc (a b c : JObj) :
    (a.append b).append c = a.append (b.append c) := by
  cases a with
  | nil => rfl
  | cons k v t => rw [JObj.append, JObj.append, JObj.append, JObj.append_assoc t]

theorem JObj.hasKey_append (a b : JObj) (k : String) :
    (a.append b).hasKey k = (a.hasKey k || b.hasKey k) := by
  cases a with
  | nil => rfl
  | cons k0 v0 t =>
    rw [JObj.append, JObj.hasKey, JObj.hasKey, JObj.hasKey_append t, Bool.or_assoc]

theorem JObj.setKey_not_has {o : JObj} {k : String} (v : Json)
    (h : o.hasKey k = false) : o.setKey k v = o.append (.cons k v .nil) := by
  cases o with
  | nil => rfl
  | cons k0 v0 t =>
    rw [JObj.hasKey, Bool.or_eq_false_iff, decide_eq_false_iff_not] at h
    rw [JObj.setKey, if_neg h.1, JObj.append, JObj.setKey_not_has v h.2]

theorem keysUnique_no_dup_head {a : JObj} {k : String} {v : Json} {r : JObj}
    (h : keysUnique (a.append (.cons k v r)) = true) : a.hasKey k = false := by
  cases a with
  | nil => rfl
  | cons k0 v0 t =>
    rw [JObj.append, keysUnique, Bool.and_eq_true, Bool.not_eq_true'] at h
    obtain ⟨h1, h2⟩ := h
    rw [JObj.hasKey_append, JObj.hasKey, Bool.or_eq_false_iff,
      Bool.or_eq_false_iff, decide_eq_false_iff_not] at h1
    rw [JObj.hasKey, Bool.or_eq_false_iff, decide_eq_false_iff_not]
    exact ⟨fun he => h1.2.1 he.symm, keysUnique_no_dup_head h2⟩

theorem JObj.foldSet_eq_append (raw acc : JObj)
    (h : keysUnique (acc.append raw) = true) : JObj.foldSet acc raw = acc.append raw := by
  cases raw with
  | nil => rw [JObj.foldSet, JObj.append_nil]
  | cons k v rest =>
    have hacc : acc.hasKey k = false := keysUnique_no_dup_head h
    rw [JObj.foldSet, JObj.setKey_not_has v hacc,
      JObj.foldSet_eq_append rest _ (by rw [JObj.append_assoc]; exact h)]
    rw [JObj.append_assoc]
    rfl

theorem dedupKeys_of_keysUnique {kvs : JObj} (h : keysUnique kvs = true) :
    dedupKeys kvs = kvs := by
  rw [dedupKeys, JObj.foldSet_eq_append kvs .nil h]
  rfl

theorem JObj.lookup_setKey_self (o : JObj) (k : String) (v : Json) :
    (o.setKey k v).lookup k = some v := by
  cases o with
  | nil => simp [JObj.setKey, JObj.lookup]
  | cons k0 v0 t =>
    by_cases h : k0 = k
    · subst h; simp [JObj.setKey, JObj.lookup]
    · rw [JObj.setKey, if_neg h, JObj.lookup, if_neg h]
      exact JObj.lookup_setKey_self t k v

theorem JObj.hasKey_setKey (o : JObj) (k k2 : String) (v : Json) :
    (o.setKey k v).hasKey k2 = (o.hasKey k2 || decide (k = k2)) := by
  cases o with
  | nil => simp [JObj.setKey, JObj.hasKey]
  | cons k0 v0 t =>
    by_cases h : k0 = k
    · subst h
      rw [JObj.setKey, if_pos rfl, JObj.hasKey, JObj.hasKey]
      cases hb : decide (k0 = k2) <;> cases hc : JObj.hasKey t k2 <;> simp [hb, hc]
    · rw [JObj.setKey, if_neg h, JObj.hasKey, JObj.hasKey, JObj.hasKey_setKey t, Bool.or_assoc]

theorem keysUnique_setKey {o : JObj} (k : String) (v : Json)
    (h : keysUnique o = true) : keysUnique (o.setKey k v) = true := by
  cases o with
  | nil => simp [JObj.setKey, keysUnique, JObj.hasKey]
  | cons k0 v0 t =>
    rw [keysUnique, Bool.and_eq_true, Bool.not_eq_true'] at h
    obtain ⟨h1, h2⟩ := h
    by_cases he : k0 = k
    · subst he
      rw [JObj.setKey, if_pos rfl, keysUnique, Bool.and_eq_true, Bool.not_eq_true']
      exact ⟨h1, h2⟩
    · rw [JObj.setKey, if_neg he, keysUnique, Bool.and_eq_true, Bool.not_eq_true']
      constructor
      · rw [JObj.hasKey_setKey, Bool.or_eq_false_iff, h1]
        exact ⟨rfl, by simpa using fun hk => he hk.symm⟩
      · exact keysUnique_setKey k v h2

theorem jobjWF_setKey {o : JObj} {k : String} {v : Json}
    (ho : jobjWF o = true) (hv : jsonWF v = true) : jobjWF (o.setKey k v) = true := by
  cases o with
  | nil => simp [JObj.setKey, jobjWF, hv]
  | cons k0 v0 t =>
    rw [jobjWF, Bool.and_eq_true] at ho
    by_cases he : k0 = k
    · subst he
      rw [JObj.setKey, if_pos rfl, jobjWF, Bool.and_eq_true]
      exact ⟨hv, ho.2⟩
    · rw [JObj.setKey, if_neg he, jobjWF, Bool.and_eq_true]
      exact ⟨ho.1, jobjWF_setKey ho.2 hv⟩

theorem keysUnique_foldSet (raw : JObj) : ∀ acc, keysUnique acc = true →
    keysUnique (JObj.foldSet acc raw) = true := by
  cases raw with
  | nil => intro acc h; exact h
  | cons k v rest =>
    intro acc h
    rw [JObj.foldSet]
    exact keysUnique_foldSet rest _ (keysUnique_setKey k v h)

theorem jobjWF_foldSet (raw : JObj) : ∀ acc, jobjWF acc = true → jobjWF raw = true →
    jobjWF (JObj.foldSet acc raw) = true := by
  cases raw with
  | nil => intro acc h _; exact h
  | cons k v rest =>
    intro acc h hr
    rw [jobjWF, Bool.and_eq_true] at hr
    rw [JObj.foldSet]
    exact jobjWF_foldSet rest _ (jobjWF_setKey h hr.1) hr.2

theorem keysUnique_dedupKeys (raw : JObj) : keysUnique (dedupKeys raw) = true :=
  keysUnique_foldSet raw .nil rfl

theorem jobjWF_dedupKeys {raw : JObj} (h : jobjWF raw = true) :
    jobjWF (dedupKeys raw) = true :=
  jobjWF_foldSet raw .nil rfl h

/-! ### Parser dispatch lemmas -/

theorem skipWs_ws_head {c : Char} (h : wsChar c = true) (l : List Char) :
    skipWs (c :: l) = skipWs l := by
  simp [skipWs, h]

theorem skipWs_newline_indent (m : Nat) (X : List Char) :
    skipWs ('\n' :: (indentChars m ++ X)) = skipWs X := by
  rw [skipWs_ws_head (by decide), skipWs_append_of_allWs (allWs_indentChars m)]

theorem parseVal_congr_ws {a b : List Char} (f : Nat) (h : skipWs a = skipWs b) :
    parseVal f a = parseVal f b := by
  cases f with
  | zero => rfl
  | succ f =>
    conv_lhs => rw [parseVal]
    conv_rhs => rw [parseVal]
    rw [h]

theorem parseVal_null_lit (f : Nat) (r : List Char) :
    parseVal (f + 1) ('n' :: 'u' :: 'l' :: 'l' :: r) = some (.null, r) := rfl

theorem parseVal_true_lit (f : Nat) (r : List Char) :
    parseVal (f + 1) ('t' :: 'r' :: 'u' :: 'e' :: r) = some (.bool true, r) := rfl

theorem parseVal_false_lit (f : Nat) (r : List Char) :
    parseVal (f + 1) ('f' :: 'a' :: 'l' :: 's' :: 'e' :: r) = some (.bool false, r) := rfl

theorem parseVal_quote_lit (f : Nat) (r : List Char) :
    parseVal (f + 1) ('\"' :: r) = jsonStrResult (parseStrBody r) := rfl

theorem parseVal_lbrace_lit (f : Nat) (r : List Char) :
    parseVal (f + 1) ('\x7b' :: r) = objResult (parseObjBody f r) := rfl

theorem parseVal_lbracket_lit (f : Nat) (r : List Char) :
    parseVal (f + 1) ('[' :: r) = arrResult (parseArrBody f r) := rfl

theorem parseObjBody_rbrace_lit (f : Nat) (r : List Char) :
    parseObjBody (f + 1) ('\x7d' :: r) = some (.nil, r) := rfl

theorem parseObjBody_quote_lit (f : Nat) (r : List Char) :
    parseObjBody (f + 1) ('\"' :: r) = parseMemberKey f (parseStrBody r) := rfl

theorem parseMemberKey_colon {f : Nat} {k r2 r3 : List Char}
    (h : skipWs r2 = ':' :: r3) :
    parseMemberKey (f + 1) (some (k, r2)) =
      parseMemberValue f (String.mk k) (parseVal f r3) := by
  rw [parseMemberKey, h]
  exact rfl

theorem parseMemberValue_some (f : Nat) (k : String) (v : Json) (r4 : List Char) :
    parseMemberValue (f + 1) k (some (v, r4)) =
      memberResult k v (parseMembersRest f r4) := rfl

theorem parseMembersRest_close {f : Nat} {input r : List Char}
    (h : skipWs input = '\x7d' :: r) :
    parseMembersRest (f + 1) input = some (.nil, r) := by
  rw [parseMembersRest, h]
  exact rfl

theorem parseMembersRest_comma {f : Nat} {input r r1 : List Char}
    (h : skipWs input = ',' :: r) (h2 : skipWs r = '\"' :: r1) :
    parseMembersRest (f + 1) input = parseMemberKey f (parseStrBody r1) := by
  rw [parseMembersRest, h]
  split
  · rename_i heq
    rw [List.cons.injEq] at heq
    exact absurd heq.1 (by decide)
  · rename_i r' heq
    rw [List.cons.injEq] at heq
    obtain ⟨-, h3⟩ := heq
    subst h3
    rw [h2]
    exact rfl
  · rename_i hne
    exact absurd rfl (hne r)

theorem parseArrBody_close {f : Nat} {input r : List Char}
    (h : skipWs input = ']' :: r) :
    parseArrBody (f + 1) input = some (.nil, r) := by
  rw [parseArrBody, h]
  exact rfl

theorem parseArrBody_val {f : Nat} {input y : List Char} {c : Char}
    (h : skipWs input = c :: y) (hc : c ≠ ']') :
    parseArrBody (f + 1) input = parseElemValue f (parseVal f input) := by
  rw [parseArrBody, h]
  split
  · rename_i heq
    rw [List.cons.injEq] at heq
    exact absurd heq.1 hc
  · rfl

theorem parseElemValue_some (f : Nat) (v : Json) (r2 : List Char) :
    parseElemValue (f + 1) (some (v, r2)) = elemResult v (parseElemsRest f r2) := rfl

theorem parseElemsRest_close {f : Nat} {input r : List Char}
    (h : skipWs input = ']' :: r) :
    parseElemsRest (f + 1) input = some (.nil, r) := by
  rw [parseElemsRest, h]
  exact rfl

theorem parseElemsRest_comma {f : Nat} {input r : List Char}
    (h : skipWs input = ',' :: r) :
    parseElemsRest (f + 1) input = parseElemValue f (parseVal f r) := by
  rw [parseElemsRest, h]
  exact rfl

/-- Every serialised JSON value starts with a character that is neither
whitespace nor a closing delimiter nor a comma. -/
theorem dumpVal_head (j : Json) (lvl : Nat) :
    ∃ c y, dumpVal j lvl = c :: y ∧ wsChar c = false ∧ c ≠ ']' ∧ c ≠ '\x7d' ∧ c ≠ ',' := by
  cases j with
  | null => exact ⟨'n', _, rfl, by decide, by decide, by decide, by decide⟩
  | bool b =>
    cases b with
    | true => exact ⟨'t', _, rfl, by decide, by decide, by decide, by decide⟩
    | false => exact ⟨'f', _, rfl, by decide, by decide, by decide, by decide⟩
  | num n =>
    cases n with
    | ofNat m =>
      obtain ⟨c, ds, hcd⟩ := List.exists_cons_of_ne_nil
        (show dumpNat m ≠ [] from dumpNatAux_ne_nil (Nat.lt_succ_self m))
      have hdig : c.isDigit = true :=
        dumpNatAux_all_digits (Nat.lt_succ_self m) c
          (by rw [show dumpNatAux (m + 1) m = c :: ds from hcd]; simp)
      refine ⟨c, ds, hcd, wsChar_false_of_isDigit hdig, ?_, ?_, ?_⟩
      · rintro rfl; simp at hdig
      · rintro rfl; simp at hdig
      · rintro rfl; simp at hdig
    | negSucc m =>
      exact ⟨'-', _, rfl, by decide, by decide, by decide, by decide⟩
  | str s => exact ⟨'\"', _, rfl, by decide, by decide, by decide, by decide⟩
  | arr xs =>
    cases xs with
    | nil => exact ⟨'[', _, rfl, by decide, by decide, by decide, by decide⟩
    | cons x t => exact ⟨'[', _, rfl, by decide, by decide, by decide, by decide⟩
  | obj kvs =>
    cases kvs with
    | nil => exact ⟨'\x7b', _, rfl, by decide, by decide, by decide, by decide⟩
    | cons k v t => exact ⟨'\x7b', _, rfl, by decide, by decide, by decide, by decide⟩

/-! ### Fuel bounds for the parser -/

mutual
def fuelVal : Json → Nat
  | .null => 1
  | .bool _ => 1
  | .num _ => 1
  | .str _ => 1
  | .arr .nil => 2
  | .arr (.cons x xs) => 3 + fuelVal x + fuelList xs
  | .obj .nil => 2
  | .obj (.cons _ v t) => 4 + fuelVal v + fuelObj t
def fuelList : JList → Nat
  | .nil => 1
  | .cons y ys => 2 + fuelVal y + fuelList ys
def fuelObj : JObj → Nat
  | .nil => 1
  | .cons _ v t => 3 + fuelVal v + fuelObj t
end

theorem fuelVal_pos (j : Json) : 1 ≤ fuelVal j := by
  cases j with
  | null => exact Nat.le_refl 1
  | bool b => exact Nat.le_refl 1
  | num n => exact Nat.le_refl 1
  | str s => exact Nat.le_refl 1
  | arr xs => cases xs <;> simp [fuelVal] <;> omega
  | obj kvs => cases kvs <;> simp [fuelVal] <;> omega

theorem fuelList_pos (xs : JList) : 1 ≤ fuelList xs := by
  cases xs <;> simp [fuelList] <;> omega

theorem fuelObj_pos (kvs : JObj) : 1 ≤ fuelObj kvs := by
  cases kvs <;> simp [fuelObj] <;> omega

theorem numStop_elemsRest (xs : JList) (lvl : Nat) (z : List Char) :
    numStop (dumpElemsRest xs lvl ++ '\n' :: z) = true := by
  cases xs with
  | nil => rfl
  | cons y ys => rfl

theorem numStop_membersRest (kvs : JObj) (lvl : Nat) (z : List Char) :
    numStop (dumpMembersRest kvs lvl ++ '\n' :: z) = true := by
  cases kvs with
  | nil => rfl
  | cons k v t => rfl

theorem parseObjBody_quote {f : Nat} {input r : List Char}
    (h : skipWs input = '\"' :: r) :
    parseObjBody (f + 1) input = parseMemberKey f (parseStrBody r) := by
  rw [parseObjBody, h]
  exact rfl

theorem parseObjBody_close {f : Nat} {input r : List Char}
    (h : skipWs input = '\x7d' :: r) :
    parseObjBody (f + 1) input = some (.nil, r) := by
  rw [parseObjBody, h]
  exact rfl

theorem string_mk_data (s : String) : String.mk s.data = s := rfl

/-- Completeness of the parser on serialiser output: parsing the dump of a
well-formed value (with enough fuel) returns exactly that value. -/
theorem parse_complete : ∀ f : Nat,
    (∀ j lvl rest, jsonWF j = true → fuelVal j ≤ f → numStop rest = true →
      parseVal f (dumpVal j lvl ++ rest) = some (j, rest)) ∧
    (∀ xs lvl lvl0 rest, jlistWF xs = true → fuelList xs ≤ f →
      parseElemsRest f
        (dumpElemsRest xs lvl ++ ('\n' :: (indentChars lvl0 ++ (']' :: rest)))) =
        some (xs, rest)) ∧
    (∀ kvs lvl lvl0 rest, jobjWF kvs = true → fuelObj kvs ≤ f →
      parseMembersRest f
        (dumpMembersRest kvs lvl ++ ('\n' :: (indentChars lvl0 ++ ('\x7d' :: rest)))) =
        some (kvs, rest)) := by
  intro f
  induction f using Nat.strong_induction_on with
  | _ f ih =>
  refine ⟨?_, ?_, ?_⟩
  · -- values
    intro j lvl rest hwf hfu hstop
    cases f with
    | zero => have := fuelVal_pos j; omega
    | succ f1 =>
    cases j with
    | null => exact parseVal_null_lit f1 rest
    | bool b =>
      cases b with
      | true => exact parseVal_true_lit f1 rest
      | false => exact parseVal_false_lit f1 rest
    | num n => exact parseVal_dumpInt hstop
    | str s =>
      show parseVal (f1 + 1)
        ('\"' :: ((escString s.data ++ ['\"']) ++ rest)) = some (.str s, rest)
      rw [parseVal_quote_lit, List.append_assoc]
      rw [show escString s.data ++ (['\"'] ++ rest) =
        escString s.data ++ '\"' :: rest from rfl]
      rw [parseStrBody_escString]
      rfl
    | arr xs =>
      cases xs with
      | nil =>
        cases f1 with
        | zero => simp [fuelVal] at hfu
        | succ f2 =>
          show parseVal (f2 + 1 + 1) ('[' :: (']' :: rest)) = some (.arr .nil, rest)
          rw [parseVal_lbracket_lit,
            parseArrBody_close (skipWs_not_ws (by decide) (rest))]
          rfl
      | cons x t =>
        rw [jsonWF] at hwf
        rw [jlistWF, Bool.and_eq_true] at hwf
        obtain ⟨hx, ht⟩ := hwf
        rw [fuelVal] at hfu
        cases f1 with
        | zero => omega
        | succ f2 =>
        simp only [dumpVal, List.append_assoc, List.cons_append, List.nil_append]
        rw [parseVal_lbracket_lit]
        obtain ⟨c, y, hcy, hcw, hcrb, hcrc, hccm⟩ := dumpVal_head x (lvl + 1)
        have hskip : skipWs ('\n' :: (indentChars (lvl + 1) ++
            (dumpVal x (lvl + 1) ++ (dumpElemsRest t (lvl + 1) ++
              ('\n' :: (indentChars lvl ++ (']' :: rest))))))) =
            c :: (y ++ (dumpElemsRest t (lvl + 1) ++
              ('\n' :: (indentChars lvl ++ (']' :: rest))))) := by
          rw [skipWs_newline_indent, hcy, List.cons_append, skipWs_not_ws hcw]
        rw [parseArrBody_val hskip hcrb]
        have hval : parseVal f2 ('\n' :: (indentChars (lvl + 1) ++
            (dumpVal x (lvl + 1) ++ (dumpElemsRest t (lvl + 1) ++
              ('\n' :: (indentChars lvl ++ (']' :: rest))))))) =
            some (x, dumpElemsRest t (lvl + 1) ++
              ('\n' :: (indentChars lvl ++ (']' :: rest)))) := by
          rw [parseVal_congr_ws f2 (skipWs_newline_indent (lvl + 1) _)]
          exact (ih f2 (by omega)).1 x (lvl + 1) _ hx (by omega)
            (numStop_elemsRest t (lvl + 1) _)
        rw [hval]
        cases f2 with
        | zero => omega
        | succ f3 =>
        rw [parseElemValue_some, (ih f3 (by omega)).2.1 t (lvl + 1) lvl rest ht (by omega)]
        rfl
    | obj kvs =>
      cases kvs with
      | nil =>
        cases f1 with
        | zero => simp [fuelVal] at hfu
        | succ f2 =>
          show parseVal (f2 + 1 + 1) ('\x7b' :: ('\x7d' :: rest)) =
            some (.obj .nil, rest)
          rw [parseVal_lbrace_lit,
            parseObjBody_close (skipWs_not_ws (by decide) (rest))]
          rfl
      | cons k v t =>
        rw [jsonWF, Bool.and_eq_true] at hwf
        obtain ⟨hku, hwv⟩ := hwf
        rw [jobjWF, Bool.and_eq_true] at hwv
        obtain ⟨hv, ht⟩ := hwv
        rw [fuelVal] at hfu
        cases f1 with
        | zero => omega
        | succ f2 =>
        simp only [dumpVal, dumpStr, List.append_assoc, List.cons_append,
          List.nil_append]
        rw [parseVal_lbrace_lit]
        have hskip : skipWs ('\n' :: (indentChars (lvl + 1) ++
            ('\"' :: (escString k.data ++ ('\"' :: (':' :: (' ' ::
              (dumpVal v (lvl + 1) ++ (dumpMembersRest t (lvl + 1) ++
                ('\n' :: (indentChars lvl ++ ('\x7d' :: rest)))))))))))) =
            '\"' :: (escString k.data ++ ('\"' :: (':' :: (' ' ::
              (dumpVal v (lvl + 1) ++ (dumpMembersRest t (lvl + 1) ++
                ('\n' :: (indentChars lvl ++ ('\x7d' :: rest))))))))) := by
          rw [skipWs_newline_indent, skipWs_not_ws (by decide)]
        rw [parseObjBody_quote hskip, parseStrBody_escString]
        cases f2 with
        | zero => omega
        | succ f3 =>
        rw [parseMemberKey_colon (skipWs_not_ws (by decide) _)]
        have hval : parseVal f3 (' ' :: (dumpVal v (lvl + 1) ++
            (dumpMembersRest t (lvl + 1) ++
              ('\n' :: (indentChars lvl ++ ('\x7d' :: rest)))))) =
            some (v, dumpMembersRest t (lvl + 1) ++
              ('\n' :: (indentChars lvl ++ ('\x7d' :: rest)))) := by
          rw [parseVal_congr_ws f3 (skipWs_ws_head (by decide) _)]
          exact (ih f3 (by omega)).1 v (lvl + 1) _ hv (by omega)
            (numStop_membersRest t (lvl + 1) _)
        rw [hval]
        cases f3 with
        | zero => omega
        | succ f4 =>
        rw [parseMemberValue_some,
          (ih f4 (by omega)).2.2 t (lvl + 1) lvl rest ht (by omega)]
        show some (Json.obj (dedupKeys (JObj.cons (String.mk k.data) v t)), rest) =
          some (Json.obj (JObj.cons k v t), rest)
        rw [string_mk_data, dedupKeys_of_keysUnique hku]
  · -- array element loops
    intro xs lvl lvl0 rest hwf hfu
    cases f with
    | zero => have := fuelList_pos xs; omega
    | succ f1 =>
    cases xs with
    | nil =>
      have hskip : skipWs (dumpElemsRest .nil lvl ++
          ('\n' :: (indentChars lvl0 ++ (']' :: rest)))) = ']' :: rest := by
        show skipWs ('\n' :: (indentChars lvl0 ++ (']' :: rest))) = ']' :: rest
        rw [skipWs_newline_indent, skipWs_not_ws (by decide)]
      rw [parseElemsRest_close hskip]
    | cons y ys =>
      rw [jlistWF, Bool.and_eq_true] at hwf
      obtain ⟨hy, hys⟩ := hwf
      rw [fuelList] at hfu
      simp only [dumpElemsRest, List.append_assoc, List.cons_append, List.nil_append]
      rw [parseElemsRest_comma (skipWs_not_ws (by decide) _)]
      have hval : parseVal f1 ('\n' :: (indentChars lvl ++
          (dumpVal y lvl ++ (dumpElemsRest ys lvl ++
            ('\n' :: (indentChars lvl0 ++ (']' :: rest))))))) =
          some (y, dumpElemsRest ys lvl ++
            ('\n' :: (indentChars lvl0 ++ (']' :: rest)))) := by
        rw [parseVal_congr_ws f1 (skipWs_newline_indent lvl _)]
        exact (ih f1 (by omega)).1 y lvl _ hy (by omega)
          (numStop_elemsRest ys lvl _)
      rw [hval]
      cases f1 with
      | zero => omega
      | succ f2 =>
      rw [parseElemValue_some, (ih f2 (by omega)).2.1 ys lvl lvl0 rest hys (by omega)]
      rfl
  · -- object member loops
    intro kvs lvl lvl0 rest hwf hfu
    cases f with
    | zero => have := fuelObj_pos kvs; omega
    | succ f1 =>
    cases kvs with
    | nil =>
      have hskip : skipWs (dumpMembersRest .nil lvl ++
          ('\n' :: (indentChars lvl0 ++ ('\x7d' :: rest)))) = '\x7d' :: rest := by
        show skipWs ('\n' :: (indentChars lvl0 ++ ('\x7d' :: rest))) = '\x7d' :: rest
        rw [skipWs_newline_indent, skipWs_not_ws (by decide)]
      rw [parseMembersRest_close hskip]
    | cons k v t =>
      rw [jobjWF, Bool.and_eq_true] at hwf
      obtain ⟨hv, ht⟩ := hwf
      rw [fuelObj] at hfu
      simp only [dumpMembersRest, dumpStr, List.append_assoc, List.cons_append,
        List.nil_append]
      have hsk2 : skipWs ('\n' :: (indentChars lvl ++
          ('\"' :: (escString k.data ++ ('\"' :: (':' :: (' ' ::
            (dumpVal v lvl ++ (dumpMembersRest t lvl ++
              ('\n' :: (indentChars lvl0 ++ ('\x7d' :: rest)))))))))))) =
          '\"' :: (escString k.data ++ ('\"' :: (':' :: (' ' ::
            (dumpVal v lvl ++ (dumpMembersRest t lvl ++
              ('\n' :: (indentChars lvl0 ++ ('\x7d' :: rest))))))))) := by
        rw [skipWs_newline_indent, skipWs_not_ws (by decide)]
      rw [parseMembersRest_comma (skipWs_not_ws (by decide) _) hsk2,
        parseStrBody_escString]
      cases f1 with
      | zero => omega
      | succ f2 =>
      rw [parseMemberKey_colon (skipWs_not_ws (by decide) _)]
      have hval : parseVal f2 (' ' :: (dumpVal v lvl ++
          (dumpMembersRest t lvl ++
            ('\n' :: (indentChars lvl0 ++ ('\x7d' :: rest)))))) =
          some (v, dumpMembersRest t lvl ++
            ('\n' :: (indentChars lvl0 ++ ('\x7d' :: rest)))) := by
        rw [parseVal_congr_ws f2 (skipWs_ws_head (by decide) _)]
        exact (ih f2 (by omega)).1 v lvl _ hv (by omega)
          (numStop_membersRest t lvl _)
      rw [hval]
      cases f2 with
      | zero => omega
      | succ f3 =>
      rw [parseMemberValue_some,
        (ih f3 (by omega)).2.2 t lvl lvl0 rest ht (by omega)]
      show some (JObj.cons (String.mk k.data) v t, rest) =
        some (JObj.cons k v t, rest)
      rw [string_mk_data]

/-! ### Enough fuel: the fuel bound is below the input length -/

theorem dumpStr_length_ge (s : String) : 2 ≤ (dumpStr s).length := by
  rw [dumpStr]
  simp

theorem dumpInt_length_pos (n : Int) : 1 ≤ (dumpInt n).length := by
  cases n with
  | ofNat m =>
    have h : dumpNat m ≠ [] := dumpNatAux_ne_nil (Nat.lt_succ_self m)
    show 1 ≤ (dumpNat m).length
    cases hm : dumpNat m with
    | nil => exact absurd hm h
    | cons c t => simp
  | negSucc m => simp [dumpInt]

mutual
theorem fuelVal_le_length (j : Json) (lvl : Nat) :
    fuelVal j ≤ (dumpVal j lvl).length := by
  cases j with
  | null => simp [fuelVal, dumpVal]
  | bool b => cases b <;> simp [fuelVal, dumpVal]
  | num n => exact le_trans (by simp [fuelVal]) (dumpInt_length_pos n)
  | str s => exact le_trans (by simp [fuelVal]) (dumpStr_length_ge s)
  | arr xs =>
    cases xs with
    | nil => simp [fuelVal, dumpVal]
    | cons x t =>
      have h1 := fuelVal_le_length x (lvl + 1)
      have h2 := fuelList_le_length t (lvl + 1)
      rw [fuelVal, dumpVal]
      simp only [List.length_cons, List.length_append]
      omega
  | obj kvs =>
    cases kvs with
    | nil => simp [fuelVal, dumpVal]
    | cons k v t =>
      have h1 := fuelVal_le_length v (lvl + 1)
      have h2 := fuelObj_le_length t (lvl + 1)
      have h3 := dumpStr_length_ge k
      rw [fuelVal, dumpVal]
      simp only [List.length_cons, List.length_append]
      omega
theorem fuelList_le_length (xs : JList) (lvl : Nat) :
    fuelList xs ≤ (dumpElemsRest xs lvl).length + 1 := by
  cases xs with
  | nil => simp [fuelList, dumpElemsRest]
  | cons y ys =>
    have h1 := fuelVal_le_length y lvl
    have h2 := fuelList_le_length ys lvl
    rw [fuelList, dumpElemsRest]
    simp only [List.length_cons, List.length_append]
    omega
theorem fuelObj_le_length (kvs : JObj) (lvl : Nat) :
    fuelObj kvs ≤ (dumpMembersRest kvs lvl).length + 1 := by
  cases kvs with
  | nil => simp [fuelObj, dumpMembersRest]
  | cons k v t =>
    have h1 := fuelVal_le_length v lvl
    have h2 := fuelObj_le_length t lvl
    have h3 := dumpStr_length_ge k
    rw [fuelObj, dumpMembersRest]
    simp only [List.length_cons, List.length_append]
    omega
end

/-- `json.loads` inverts `json.dump` on well-formed values. -/
theorem loads_dump {j : Json} (h : jsonWF j = true) : loads (dumpVal j 0) = some j := by
  rw [loads]
  have hle : fuelVal j ≤ (dumpVal j 0).length + 1 :=
    Nat.le_succ_of_le (fuelVal_le_length j 0)
  have hp := (parse_complete ((dumpVal j 0).length + 1)).1 j 0 [] h hle rfl
  rw [List.append_nil] at hp
  rw [hp]
  rfl

/-! ### Parser output is well-formed -/

theorem some_pair_inj {A B : Type} {a j : A} {b r : B}
    (h : some (a, b) = some (j, r)) : a = j := by
  cases h
  rfl

theorem parseNumBody_shape {neg : Bool} {l : List Char} {j : Json} {r : List Char}
    (h : parseNumBody neg l = some (j, r)) : ∃ m : Int, j = .num m := by
  cases l with
  | nil => simp [parseNumBody] at h
  | cons c rest =>
    rw [parseNumBody.eq_def] at h
    dsimp only at h
    split at h
    · split at h
      · split at h
        · simp at h
        · exact ⟨_, (some_pair_inj h).symm⟩
      · exact ⟨_, (some_pair_inj h).symm⟩
    · split at h
      · split at h
        · split at h
          · simp at h
          · exact ⟨_, (some_pair_inj h).symm⟩
        · exact ⟨_, (some_pair_inj h).symm⟩
      · simp at h

theorem parseVal_zero (input : List Char) : parseVal 0 input = none := rfl

theorem parseObjBody_zero (input : List Char) : parseObjBody 0 input = none := rfl

theorem parseMembersRest_zero (input : List Char) : parseMembersRest 0 input = none := rfl

theorem parseArrBody_zero (input : List Char) : parseArrBody 0 input = none := rfl

theorem parseElemsRest_zero (input : List Char) : parseElemsRest 0 input = none := rfl

theorem parseMemberKey_zero (so : Option (List Char × List Char)) :
    parseMemberKey 0 so = none := by cases so <;> rfl

theorem parseElemValue_zero (vo : Option (Json × List Char)) :
    parseElemValue 0 vo = none := by cases vo <;> rfl

theorem parseMemberValue_zero (k : String) (vo : Option (Json × List Char)) :
    parseMemberValue 0 k vo = none := by cases vo <;> rfl

/-- Everything the parser returns satisfies `jsonWF`: object keys are
duplicate-free at every nesting level (dicts cannot hold duplicates). -/
theorem parse_wf : ∀ f : Nat,
    (∀ input j r, parseVal f input = some (j, r) → jsonWF j = true) ∧
    (∀ input o r, parseObjBody f input = some (o, r) → jobjWF o = true) ∧
    (∀ input o r, parseMembersRest f input = some (o, r) → jobjWF o = true) ∧
    (∀ input xs r, parseArrBody f input = some (xs, r) → jlistWF xs = true) ∧
    (∀ input xs r, parseElemsRest f input = some (xs, r) → jlistWF xs = true) ∧
    (∀ so o r, parseMemberKey f so = some (o, r) → jobjWF o = true) ∧
    (∀ vo xs r, parseElemValue f vo = some (xs, r) →
      (∀ v r2, vo = some (v, r2) → jsonWF v = true) → jlistWF xs = true) ∧
    (∀ k vo o r, parseMemberValue f k vo = some (o, r) →
      (∀ v r4, vo = some (v, r4) → jsonWF v = true) → jobjWF o = true) := by
  intro f
  induction f using Nat.strong_induction_on with
  | _ f ih =>
  cases f with
  | zero =>
    refine ⟨?_, ?_, ?_, ?_, ?_, ?_, ?_, ?_⟩ <;> intro a b c h
    · rw [parseVal_zero] at h; simp at h
    · rw [parseObjBody_zero] at h; simp at h
    · rw [parseMembersRest_zero] at h; simp at h
    · rw [parseArrBody_zero] at h; simp at h
    · rw [parseElemsRest_zero] at h; simp at h
    · rw [parseMemberKey_zero] at h; simp at h
    · rw [parseElemValue_zero] at h; simp at h
    · intro h2; rw [parseMemberValue_zero] at h2; simp at h2
  | succ f1 =>
  have ihV := (ih f1 (Nat.lt_succ_self f1)).1
  have ihO := (ih f1 (Nat.lt_succ_self f1)).2.1
  have ihM := (ih f1 (Nat.lt_succ_self f1)).2.2.1
  have ihA := (ih f1 (Nat.lt_succ_self f1)).2.2.2.1
  have ihE := (ih f1 (Nat.lt_succ_self f1)).2.2.2.2.1
  have ihK := (ih f1 (Nat.lt_succ_self f1)).2.2.2.2.2.1
  have ihEV := (ih f1 (Nat.lt_succ_self f1)).2.2.2.2.2.2.1
  have ihMV := (ih f1 (Nat.lt_succ_self f1)).2.2.2.2.2.2.2
  refine ⟨?_, ?_, ?_, ?_, ?_, ?_, ?_, ?_⟩
  · -- parseVal
    intro input j r h
    rw [parseVal] at h
    split at h
    · simp at h
    · exact (some_pair_inj h) ▸ rfl
    · exact (some_pair_inj h) ▸ rfl
    · exact (some_pair_inj h) ▸ rfl
    · rename_i r' heqq
      cases hs : parseStrBody r' with
      | none => rw [hs] at h; simp [jsonStrResult] at h
      | some p =>
        obtain ⟨s2, r2⟩ := p
        rw [hs] at h
        simp only [jsonStrResult] at h
        exact (some_pair_inj h) ▸ rfl
    · rename_i r' heqq
      cases ho : parseObjBody f1 r' with
      | none => rw [ho] at h; simp [objResult] at h
      | some p =>
        obtain ⟨raw, r2⟩ := p
        rw [ho] at h
        simp only [objResult] at h
        refine (some_pair_inj h) ▸ ?_
        rw [jsonWF, Bool.and_eq_true]
        exact ⟨keysUnique_dedupKeys raw, jobjWF_dedupKeys (ihO _ _ _ ho)⟩
    · rename_i r' heqq
      cases ha : parseArrBody f1 r' with
      | none => rw [ha] at h; simp [arrResult] at h
      | some p =>
        obtain ⟨xs, r2⟩ := p
        rw [ha] at h
        simp only [arrResult] at h
        refine (some_pair_inj h) ▸ ?_
        show jlistWF xs = true
        exact ihA _ _ _ ha
    · obtain ⟨m, rfl⟩ := parseNumBody_shape h
      rfl
    · rename_i c r' hne1 hne2 hne3 hne4 hne5 hne6 hne7
      split at h
      · obtain ⟨m, rfl⟩ := parseNumBody_shape h
        rfl
      · simp at h
  · -- parseObjBody
    intro input o r h
    rw [parseObjBody] at h
    split at h
    · exact (some_pair_inj h) ▸ rfl
    · exact ihK _ _ _ h
    · simp at h
  · -- parseMembersRest
    intro input o r h
    rw [parseMembersRest] at h
    split at h
    · exact (some_pair_inj h) ▸ rfl
    · split at h
      · exact ihK _ _ _ h
      · simp at h
    · simp at h
  · -- parseArrBody
    intro input xs r h
    rw [parseArrBody] at h
    split at h
    · exact (some_pair_inj h) ▸ rfl
    · exact ihEV _ _ _ h (fun v r2 hv => ihV _ _ _ hv)
  · -- parseElemsRest
    intro input xs r h
    rw [parseElemsRest] at h
    split at h
    · exact (some_pair_inj h) ▸ rfl
    · exact ihEV _ _ _ h (fun v r2 hv => ihV _ _ _ hv)
    · simp at h
  · -- parseMemberKey
    intro so o r h
    cases so with
    | none => rw [show parseMemberKey (f1 + 1) none = none from rfl] at h; simp at h
    | some p =>
      obtain ⟨k, r2⟩ := p
      rw [parseMemberKey] at h
      split at h
      · exact ihMV _ _ _ _ h (fun v r4 hv => ihV _ _ _ hv)
      · simp at h
  · -- parseElemValue
    intro vo xs r h hvo
    cases vo with
    | none => rw [show parseElemValue (f1 + 1) none = none from rfl] at h; simp at h
    | some p =>
      obtain ⟨v, r2⟩ := p
      rw [parseElemValue] at h
      cases hm : parseElemsRest f1 r2 with
      | none => rw [hm] at h; simp [elemResult] at h
      | some q =>
        obtain ⟨more, r3⟩ := q
        rw [hm] at h
        simp only [elemResult] at h
        refine (some_pair_inj h) ▸ ?_
        rw [jlistWF, Bool.and_eq_true]
        exact ⟨hvo v r2 rfl, ihE _ _ _ hm⟩
  · -- parseMemberValue
    intro k vo o r h hvo
    cases vo with
    | none =>
      rw [show parseMemberValue (f1 + 1) k none = none from rfl] at h
      simp at h
    | some p =>
      obtain ⟨v, r4⟩ := p
      rw [parseMemberValue] at h
      cases hm : parseMembersRest f1 r4 with
      | none => rw [hm] at h; simp [memberResult] at h
      | some q =>
        obtain ⟨more, r5⟩ := q
        rw [hm] at h
        simp only [memberResult] at h
        refine (some_pair_inj h) ▸ ?_
        rw [jobjWF, Bool.and_eq_true]
        exact ⟨hvo v r4 rfl, ihM _ _ _ hm⟩

/-! ### Saving and loading -/

/-- Store states in which `save_history`'s read-modify-write can actually
write: no file yet, or a file whose contents parse as a JSON object.  In
any other state the `except` swallows the failure and nothing is saved. -/
inductive Writable : FileState → Prop
  | absent : Writable .absent
  | validObj (c : List Char) (kvs : JObj) (h : loads c = some (.obj kvs)) :
      Writable (.file c)

theorem loads_wf {c : List Char} {j : Json} (h : loads c = some j) : jsonWF j = true := by
  rw [loads] at h
  cases hp : parseVal (c.length + 1) c with
  | none => rw [hp] at h; simp at h
  | some p =>
    obtain ⟨j2, rest⟩ := p
    rw [hp] at h
    split at h
    · rename_i j3 rest3 heq
      cases heq
      split at h
      · injection h with h1
        subst h1
        exact (parse_wf (c.length + 1)).1 _ _ _ hp
      · simp at h
    · rename_i heq
      simp at heq

/-- After a successful save, loading returns exactly the saved value. -/
theorem load_after_save {messages : Json} {fs : FileState}
    (hw : Writable fs) (hm : jsonWF messages = true) :
    load_history (save_history messages fs) = messages := by
  cases hw with
  | absent =>
    have hwf : jsonWF (Json.obj (JObj.setKey .nil USER_ID messages)) = true := by
      show jsonWF (Json.obj (JObj.cons USER_ID messages .nil)) = true
      rw [jsonWF, Bool.and_eq_true]
      refine ⟨rfl, ?_⟩
      rw [jobjWF, Bool.and_eq_true]
      exact ⟨hm, rfl⟩
    rw [save_history, load_history, load_history_attempt, loads_dump hwf]
    show (JObj.lookup (JObj.setKey .nil USER_ID messages) USER_ID).getD (Json.arr .nil) =
      messages
    rw [JObj.lookup_setKey_self]
    rfl
  | validObj c kvs hld =>
    have hwf0 := loads_wf hld
    rw [jsonWF, Bool.and_eq_true] at hwf0
    have hwf : jsonWF (Json.obj (kvs.setKey USER_ID messages)) = true := by
      rw [jsonWF, Bool.and_eq_true]
      exact ⟨keysUnique_setKey _ _ hwf0.1, jobjWF_setKey hwf0.2 hm⟩
    rw [save_history, hld, load_history, load_history_attempt, loads_dump hwf]
    show (JObj.lookup (kvs.setKey USER_ID messages) USER_ID).getD (Json.arr .nil) =
      messages
    rw [JObj.lookup_setKey_self]
    rfl

/-- When the store is not writable, `save_history` silently leaves the file
unchanged. -/
theorem save_history_stuck {messages : Json} {fs : FileState}
    (h : ∀ hw : Writable fs, False) : save_history messages fs = fs := by
  cases fs with
  | absent => exact absurd Writable.absent h
  | unreadable => rfl
  | file c =>
    rw [save_history]
    cases hld : loads c with
    | none => rfl
    | some j =>
      cases j with
      | null => rfl
      | bool b => rfl
      | num n => rfl
      | str s => rfl
      | arr xs => rfl
      | obj kvs => exact absurd (Writable.validObj c kvs hld) h

/-! ### App-level helper lemmas -/

def LCMessage.contentJson : LCMessage → Json
  | .human c => c
  | .ai c => c

theorem jsonWF_serializeMsg (m : LCMessage) :
    jsonWF (serializeMsg m) = jsonWF m.contentJson := by
  cases m with
  | human c =>
    show (jsonWF c && true) = jsonWF c
    exact Bool.and_true _
  | ai c =>
    show (jsonWF c && true) = jsonWF c
    exact Bool.and_true _

theorem jsonWF_serializable (msgs : List LCMessage)
    (h : (msgs.all fun m => jsonWF m.contentJson) = true) :
    jsonWF (serializable_messages msgs) = true := by
  rw [serializable_messages]
  show jlistWF (toJList (msgs.map serializeMsg)) = true
  induction msgs with
  | nil => rfl
  | cons m t ih =>
    rw [List.all_cons, Bool.and_eq_true] at h
    show jlistWF (JList.cons (serializeMsg m) (toJList (t.map serializeMsg))) = true
    rw [jlistWF, Bool.and_eq_true]
    exact ⟨by rw [jsonWF_serializeMsg]; exact h.1, ih h.2⟩

theorem handle_input_success_messages (q : String) (chunks : List String)
    (msgs : List LCMessage) (fs : FileState) :
    (handle_input q (.success chunks) msgs fs).messages =
      msgs ++ [.human (.str q), .ai (.str (full_response chunks))] := by
  show msgs ++ [LCMessage.human (.str q)] ++ [LCMessage.ai (.str (full_response chunks))] =
    msgs ++ [.human (.str q), .ai (.str (full_response chunks))]
  rw [List.append_assoc]
  rfl

theorem handle_input_success_store (q : String) (chunks : List String)
    (msgs : List LCMessage) (fs : FileState) :
    (handle_input q (.success chunks) msgs fs).store =
      save_history (serializable_messages
        (msgs ++ [.human (.str q), .ai (.str (full_response chunks))])) fs := by
  show save_history (serializable_messages
      (msgs ++ [LCMessage.human (.str q)] ++ [LCMessage.ai (.str (full_response chunks))])) fs = _
  rw [List.append_assoc]
  rfl

theorem handle_input_failure_state (q : String) (pre : List String)
    (msgs : List LCMessage) (fs : FileState) :
    (handle_input q (.failure pre) msgs fs).messages = msgs ++ [.human (.str q)] ∧
    (handle_input q (.failure pre) msgs fs).store = fs :=
  ⟨rfl, rfl⟩

theorem handle_input_prompt (q : String) (outcome : StreamOutcome)
    (msgs : List LCMessage) (fs : FileState) :
    (handle_input q outcome msgs fs).promptSent =
      ChatMsg.system system_prompt :: (msgs.map toChatMsg ++ [ChatMsg.human (.str q)]) := by
  have hdrop : history_for_llm (msgs ++ [LCMessage.human (.str q)]) = msgs := by
    rw [history_for_llm]
    exact List.dropLast_concat
  have hren : renderTemplate (history_for_llm (msgs ++ [LCMessage.human (.str q)])) q =
      ChatMsg.system system_prompt :: (msgs.map toChatMsg ++ [ChatMsg.human (.str q)]) := by
    rw [hdrop, renderTemplate, prompt_template]
    simp [List.flatMap_cons]
  cases outcome with
  | success chunks => exact hren
  | failure pre => exact hren

theorem load_after_save_empty (fs : FileState) :
    load_history (save_history (Json.arr .nil) fs) = Json.arr .nil := by
  cases fs with
  | absent => exact load_after_save Writable.absent rfl
  | unreadable => rfl
  | file c =>
    cases hld : loads c with
    | none =>
      rw [save_history, hld]
      rw [load_history, load_history_attempt, hld]
    | some j =>
      cases j with
      | obj kvs => exact load_after_save (Writable.validObj c kvs hld) rfl
      | null => rw [save_history, hld, load_history, load_history_attempt, hld]
      | bool b => rw [save_history, hld, load_history, load_history_attempt, hld]
      | num n => rw [save_history, hld, load_history, load_history_attempt, hld]
      | str s => rw [save_history, hld, load_history, load_history_attempt, hld]
      | arr xs => rw [save_history, hld, load_history, load_history_attempt, hld]

/-! ### Hydration characterisation -/

/-- Which loaded elements the normalisation loop keeps, and how it converts
them (the kept cases of `cleanStep`). -/
def keepMsg (j : Json) : Option LCMessage :=
  match j with
  | .obj kvs =>
    match kvs.lookup "role" with
    | some r =>
      if r = .str "user" then (kvs.lookup "content").map .human
      else if r = .str "assistant" then (kvs.lookup "content").map .ai
      else none
    | none => none
  | _ => none

/-- Elements on which the normalisation loop cannot raise `KeyError`: a
dict must carry `'role'`, and `'content'` too when the role is
user/assistant. -/
def goodElem (j : Json) : Bool :=
  match j with
  | .obj kvs =>
    match kvs.lookup "role" with
    | none => false
    | some r =>
      if r = .str "user" ∨ r = .str "assistant" then (kvs.lookup "content").isSome
      else true
  | _ => true

def allGood : JList → Bool
  | .nil => true
  | .cons j t => goodElem j && allGood t

def keepAll : JList → List LCMessage
  | .nil => []
  | .cons j t =>
    match keepMsg j with
    | some m => m :: keepAll t
    | none => keepAll t

theorem cleaned_messages_allGood (l : JList) (h : allGood l = true) :
    cleaned_messages l = .ok (keepAll l) := by
  cases l with
  | nil => rfl
  | cons j t =>
    rw [allGood, Bool.and_eq_true] at h
    obtain ⟨hj, ht⟩ := h
    have iht := cleaned_messages_allGood t ht
    rw [cleaned_messages, keepAll]
    cases j with
    | obj kvs =>
      rw [goodElem] at hj
      rw [cleanStep, keepMsg]
      cases hlr : kvs.lookup "role" with
      | none =>
        rw [hlr] at hj
        simp at hj
      | some r =>
        rw [hlr] at hj
        dsimp only at hj ⊢
        by_cases hu : r = Json.str "user"
        · have hce : (kvs.lookup "content").isSome = true := by
            rw [if_pos (Or.inl hu)] at hj
            exact hj
          cases hlc : kvs.lookup "content" with
          | none =>
            rw [hlc] at hce
            simp at hce
          | some c =>
            simp [hu, iht]
        · by_cases ha : r = Json.str "assistant"
          · have hce : (kvs.lookup "content").isSome = true := by
              rw [if_pos (Or.inr ha)] at hj
              exact hj
            cases hlc : kvs.lookup "content" with
            | none =>
              rw [hlc] at hce
              simp at hce
            | some c =>
              simp [hu, ha, iht]
          · simp [hu, ha, iht]
    | null => exact iht
    | bool b => exact iht
    | num n => exact iht
    | str s => exact iht
    | arr xs => exact iht

/-! ### Spec-side load description (for C7) and history encoding (for C1) -/

/-- A `\x7brole, content\x7d` message as the spec describes conversation
history entries. -/
structure Msg where
  role : String
  content : String
  deriving DecidableEq, Repr

def msgToJson (m : Msg) : Json :=
  .obj (.cons "role" (.str m.role) (.cons "content" (.str m.content) .nil))

/-- A conversation history of `\x7brole, content\x7d` messages as the JSON
value `save_history` receives. -/
def encodeHistory (H : List Msg) : Json :=
  .arr (toJList (H.map msgToJson))

theorem jsonWF_msgToJson (m : Msg) : jsonWF (msgToJson m) = true := rfl

theorem jsonWF_encodeHistory (H : List Msg) : jsonWF (encodeHistory H) = true := by
  rw [encodeHistory]
  show jlistWF (toJList (H.map msgToJson)) = true
  induction H with
  | nil => rfl
  | cons m t ih =>
    show jlistWF (JList.cons (msgToJson m) (toJList (t.map msgToJson))) = true
    rw [jlistWF, Bool.and_eq_true]
    exact ⟨jsonWF_msgToJson m, ih⟩

/-- The record the store holds for the fixed user, when one exists: the
store file must exist, hold valid JSON, that JSON must be a dict, and
the dict must have the user id as a key. -/
def persistedRecord (fs : FileState) : Option Json :=
  match fs with
  | .file c =>
    match loads c with
    | some (.obj kvs) => kvs.lookup USER_ID
    | _ => none
  | _ => none

/-- The spec\x27s description of loading: the persisted message sequence
when a record exists, the empty sequence otherwise. -/
def load_spec (fs : FileState) : Json :=
  match persistedRecord fs with
  | some v => v
  | none => Json.arr .nil

/-! ### The claims -/

/-- C1: round-trip persistence as stated — `load_history` after
`save_history` returns the same history for EVERY starting store state —
is false: when the pre-existing store file holds corrupt (non-JSON)
bytes, `save_history` swallows the decode error and writes nothing, so
the subsequent load degrades to the empty history instead of the saved
one. Concretely, saving one user message over the store file "g" loads
back as the empty list. -/
theorem C1_corrupt_store_counterexample :
    load_history (save_history (encodeHistory [⟨"user", "Hello"⟩]) (.file ['g'])) ≠
      encodeHistory [⟨"user", "Hello"⟩] ∧
    load_history (save_history (encodeHistory [⟨"user", "Hello"⟩]) (.file ['g'])) =
      Json.arr .nil := by
  exact ⟨by decide, by decide⟩

/-- C1 (amended): round-trip persistence holds whenever the pre-existing
store state is writable — the file is absent, or parses as a JSON dict:
for every history H of \x7brole, content\x7d messages, saving H and
loading again returns exactly H, in content and order. -/
theorem C1_roundtrip (H : List Msg) (fs : FileState) (hw : Writable fs) :
    load_history (save_history (encodeHistory H) fs) = encodeHistory H :=
  load_after_save hw (jsonWF_encodeHistory H)

theorem C1_roundtrip_witness :
    load_history (save_history (encodeHistory [⟨"user", "Hello"⟩]) .absent) =
      encodeHistory [⟨"user", "Hello"⟩] :=
  C1_roundtrip [⟨"user", "Hello"⟩] .absent Writable.absent

/-- C2: append-only under success — when the stream finishes without
error, the new session state is exactly the old message list with the
user turn and then the assistant turn appended, nothing else changed,
reordered or removed. -/
theorem C2_append_only (q : String) (chunks : List String)
    (msgs : List LCMessage) (fs : FileState) :
    (handle_input q (.success chunks) msgs fs).messages =
      msgs ++ [.human (.str q), .ai (.str (full_response chunks))] :=
  handle_input_success_messages q chunks msgs fs

/-- C3: rollback on failure — when the stream raises (regardless of the
fragments already delivered), the session state is the old list plus
exactly the user turn, no assistant turn full or partial, and the
persisted store is unchanged. -/
theorem C3_rollback (q : String) (pre : List String)
    (msgs : List LCMessage) (fs : FileState) :
    (handle_input q (.failure pre) msgs fs).messages = msgs ++ [.human (.str q)] ∧
    (handle_input q (.failure pre) msgs fs).store = fs :=
  handle_input_failure_state q pre msgs fs

/-- C4: prompt assembly — the prompt sent to the provider is exactly the
static system instruction, then the prior message sequence (the session
state minus the just-appended user turn) verbatim and in order, then the
new utterance as the final user turn. -/
theorem C4_prompt_assembly (q : String) (outcome : StreamOutcome)
    (msgs : List LCMessage) (fs : FileState) :
    (handle_input q outcome msgs fs).promptSent =
      ChatMsg.system system_prompt :: (msgs.map toChatMsg ++ [ChatMsg.human (.str q)]) :=
  handle_input_prompt q outcome msgs fs

/-- C5: clear is destructive and durable — the clear action empties the
in-memory session state and is literally saving the empty sequence; and
for EVERY store state (including unwritable ones, where the save is
swallowed) a subsequent `load_history` returns the empty sequence. -/
theorem C5_clear_durable (msgs : List LCMessage) (fs : FileState) :
    clear_chat msgs fs = ([], save_history (Json.arr .nil) fs) ∧
    load_history (clear_chat msgs fs).2 = Json.arr .nil :=
  ⟨rfl, load_after_save_empty fs⟩

/-- C6: streaming reconstruction — the concatenation of the fragments in
yield order (`String.join`) is exactly the content of the assistant
message appended to the session state, and exactly what is persisted for
that exchange (stated for writable stores and messages whose contents
are well-formed JSON values, e.g. ordinary strings). -/
theorem C6_streaming (q : String) (chunks : List String)
    (msgs : List LCMessage) (fs : FileState) (hw : Writable fs)
    (hc : (msgs.all fun m => jsonWF m.contentJson) = true) :
    (handle_input q (.success chunks) msgs fs).messages =
      msgs ++ [.human (.str q), .ai (.str (String.join chunks))] ∧
    load_history (handle_input q (.success chunks) msgs fs).store =
      serializable_messages (msgs ++ [.human (.str q), .ai (.str (String.join chunks))]) := by
  have hj : String.join chunks = full_response chunks := rfl
  constructor
  · rw [hj]
    exact handle_input_success_messages q chunks msgs fs
  · rw [hj, handle_input_success_store]
    exact load_after_save hw (jsonWF_serializable _ (by rw [List.all_append, hc]; rfl))

theorem C6_streaming_witness :
    (handle_input "Hello" (.success ["Hi", " there!"]) [] .absent).messages =
      [] ++ [.human (.str "Hello"), .ai (.str (String.join ["Hi", " there!"]))] ∧
    load_history (handle_input "Hello" (.success ["Hi", " there!"]) [] .absent).store =
      serializable_messages
        ([] ++ [.human (.str "Hello"), .ai (.str (String.join ["Hi", " there!"]))]) :=
  C6_streaming "Hello" ["Hi", " there!"] [] .absent Writable.absent rfl

/-- C7: load never fails — `load_history` is a total function of the
store state, and for every store state (absent file, unreadable file,
corrupt contents, valid JSON that is not a dict, or a dict without the
user\x27s key) it returns exactly the spec\x27s description: the persisted
record when one exists, the empty sequence otherwise. -/
theorem C7_load_never_fails (fs : FileState) : load_history fs = load_spec fs := by
  cases fs with
  | absent => rfl
  | unreadable => rfl
  | file c =>
    cases hld : loads c with
    | none => simp [load_history, load_history_attempt, load_spec, persistedRecord, hld]
    | some j =>
      cases j with
      | obj kvs =>
        cases hlk : kvs.lookup USER_ID with
        | none =>
          simp [load_history, load_history_attempt, load_spec, persistedRecord, hld, hlk]
        | some v =>
          simp [load_history, load_history_attempt, load_spec, persistedRecord, hld, hlk]
      | null => simp [load_history, load_history_attempt, load_spec, persistedRecord, hld]
      | bool b => simp [load_history, load_history_attempt, load_spec, persistedRecord, hld]
      | num n => simp [load_history, load_history_attempt, load_spec, persistedRecord, hld]
      | str s => simp [load_history, load_history_attempt, load_spec, persistedRecord, hld]
      | arr xs => simp [load_history, load_history_attempt, load_spec, persistedRecord, hld]

/-- C8: "every stored message is kept" is false — the hydration loop
silently drops any dict whose role tag is neither "user" nor
"assistant": a stored list holding one system-role message hydrates to
the empty session state. -/
theorem C8_dropped_message :
    cleaned_messages (JList.cons (Json.obj (JObj.cons "role" (Json.str "system")
        (JObj.cons "content" (Json.str "hi") JObj.nil))) JList.nil) =
      Except.ok ([] : List LCMessage) ∧
    JList.cons (Json.obj (JObj.cons "role" (Json.str "system")
        (JObj.cons "content" (Json.str "hi") JObj.nil))) JList.nil ≠ JList.nil := by
  exact ⟨rfl, by decide⟩

/-- C8 (amended): hydration never reorders or deduplicates, but it
filters: on any stored list where no element raises `KeyError` (every
dict has a role, and user/assistant dicts have content), the session
state is exactly the stored sequence with user/assistant dicts converted
in order and every other element silently dropped (`keepAll`). -/
theorem C8_hydration_filters (l : JList) (h : allGood l = true) :
    cleaned_messages l = .ok (keepAll l) :=
  cleaned_messages_allGood l h

theorem C8_hydration_filters_witness :
    allGood (JList.cons (Json.obj (JObj.cons "role" (Json.str "user")
        (JObj.cons "content" (Json.str "hey") JObj.nil)))
      (JList.cons (Json.num 5)
        (JList.cons (Json.obj (JObj.cons "role" (Json.str "assistant")
          (JObj.cons "content" (Json.str "yo") JObj.nil))) JList.nil))) = true ∧
    cleaned_messages (JList.cons (Json.obj (JObj.cons "role" (Json.str "user")
        (JObj.cons "content" (Json.str "hey") JObj.nil)))
      (JList.cons (Json.num 5)
        (JList.cons (Json.obj (JObj.cons "role" (Json.str "assistant")
          (JObj.cons "content" (Json.str "yo") JObj.nil))) JList.nil))) =
      .ok (keepAll (JList.cons (Json.obj (JObj.cons "role" (Json.str "user")
        (JObj.cons "content" (Json.str "hey") JObj.nil)))
      (JList.cons (Json.num 5)
        (JList.cons (Json.obj (JObj.cons "role" (Json.str "assistant")
          (JObj.cons "content" (Json.str "yo") JObj.nil))) JList.nil)))) :=
  ⟨by decide, C8_hydration_filters _ (by decide)⟩

/-- C10: the stated precondition (every dict element has a role key) is
not enough for hydration to be total — a dict with a role key but no
content key still raises `KeyError` — while hydration is total under the
stronger `allGood` precondition, and a dict lacking the role key does
raise `KeyError "role"` as the claim says. -/
theorem C10_missing_content_raises :
    (JObj.cons "role" (Json.str "user") JObj.nil).hasKey "role" = true ∧
    cleaned_messages (JList.cons (Json.obj (JObj.cons "role" (Json.str "user")
        JObj.nil)) JList.nil) =
      Except.error (PyErr.keyError "content") := by
  exact ⟨by decide, rfl⟩

/-- C10 (amended): hydration is total exactly under `allGood` — every
dict element carries a role, and a user/assistant dict also carries
content — and an element that is a dict lacking the role key makes
hydration raise `KeyError "role"` even though loading itself returned
normally. -/
theorem C10_hydration_totality :
    (∀ l : JList, allGood l = true → ∃ msgs, cleaned_messages l = Except.ok msgs) ∧
    cleaned_messages (JList.cons (Json.obj (JObj.cons "content" (Json.str "hi")
        JObj.nil)) JList.nil) =
      Except.error (PyErr.keyError "role") :=
  ⟨fun l h => ⟨keepAll l, cleaned_messages_allGood l h⟩, rfl⟩

theorem C10_hydration_totality_witness :
    ∃ msgs, cleaned_messages (JList.cons (Json.obj (JObj.cons "role" (Json.str "user")
        (JObj.cons "content" (Json.str "hey") JObj.nil))) JList.nil) =
      Except.ok msgs :=
  C10_hydration_totality.1 _ (by decide)

/-! ### Helpers for the mid-write crash analysis (C9): a parser that has
run out of input, and whitespace bookkeeping. -/

theorem parseVal_ws_none {input : List Char} (h : skipWs input = []) :
    ∀ f, parseVal f input = none := by
  intro f
  cases f with
  | zero => rfl
  | succ f1 => rw [parseVal, h]

theorem parseVal_nil (f : Nat) : parseVal f [] = none :=
  parseVal_ws_none (show skipWs [] = [] from rfl) f

theorem parseObjBody_ws {input : List Char} (h : skipWs input = []) :
    ∀ f, parseObjBody f input = none := by
  intro f
  cases f with
  | zero => rfl
  | succ f1 => rw [parseObjBody, h]

theorem parseMembersRest_ws {input : List Char} (h : skipWs input = []) :
    ∀ f, parseMembersRest f input = none := by
  intro f
  cases f with
  | zero => rfl
  | succ f1 => rw [parseMembersRest, h]

theorem parseElemsRest_ws {input : List Char} (h : skipWs input = []) :
    ∀ f, parseElemsRest f input = none := by
  intro f
  cases f with
  | zero => rfl
  | succ f1 => rw [parseElemsRest, h]

theorem parseMemberKey_none (f : Nat) : parseMemberKey f none = none := by
  cases f <;> rfl

theorem parseElemValue_none (f : Nat) : parseElemValue f none = none := by
  cases f <;> rfl

theorem parseMemberValue_none (f : Nat) (k : String) :
    parseMemberValue f k none = none := by
  cases f <;> rfl

theorem parseMemberKey_ws {k r2 : List Char} (h : skipWs r2 = []) :
    ∀ f, parseMemberKey f (some (k, r2)) = none := by
  intro f
  cases f with
  | zero => rfl
  | succ f1 => rw [parseMemberKey, h]

theorem allWs_left {a b : List Char} (h : allWs (a ++ b) = true) : allWs a = true := by
  induction a with
  | nil => rfl
  | cons c t ih =>
    rw [List.cons_append, allWs, Bool.and_eq_true] at h
    rw [allWs, Bool.and_eq_true]
    exact ⟨h.1, ih h.2⟩

theorem skipWs_allWs {a : List Char} (h : allWs a = true) : skipWs a = [] := by
  induction a with
  | nil => rfl
  | cons c t ih =>
    rw [allWs, Bool.and_eq_true] at h
    rw [skipWs, if_pos h.1]
    exact ih h.2

/-- More fuel never loses a successful parse: the parsers are monotone in
their fuel argument. -/
theorem parse_mono : ∀ f : Nat,
    (∀ input r, parseVal f input = some r → parseVal (f + 1) input = some r) ∧
    (∀ input r, parseObjBody f input = some r → parseObjBody (f + 1) input = some r) ∧
    (∀ input r, parseMembersRest f input = some r → parseMembersRest (f + 1) input = some r) ∧
    (∀ input r, parseArrBody f input = some r → parseArrBody (f + 1) input = some r) ∧
    (∀ input r, parseElemsRest f input = some r → parseElemsRest (f + 1) input = some r) ∧
    (∀ so r, parseMemberKey f so = some r → parseMemberKey (f + 1) so = some r) ∧
    (∀ vo r, parseElemValue f vo = some r → parseElemValue (f + 1) vo = some r) ∧
    (∀ k vo r, parseMemberValue f k vo = some r → parseMemberValue (f + 1) k vo = some r) := by
  intro f
  induction f using Nat.strong_induction_on with
  | _ f ih =>
  cases f with
  | zero =>
    refine ⟨?_, ?_, ?_, ?_, ?_, ?_, ?_, ?_⟩
    · intro input r h; rw [parseVal_zero] at h; simp at h
    · intro input r h; rw [parseObjBody_zero] at h; simp at h
    · intro input r h; rw [parseMembersRest_zero] at h; simp at h
    · intro input r h; rw [parseArrBody_zero] at h; simp at h
    · intro input r h; rw [parseElemsRest_zero] at h; simp at h
    · intro so r h; rw [parseMemberKey_zero] at h; simp at h
    · intro vo r h; rw [parseElemValue_zero] at h; simp at h
    · intro k vo r h; rw [parseMemberValue_zero] at h; simp at h
  | succ f1 =>
  have ihV := (ih f1 (Nat.lt_succ_self f1)).1
  have ihO := (ih f1 (Nat.lt_succ_self f1)).2.1
  have ihM := (ih f1 (Nat.lt_succ_self f1)).2.2.1
  have ihA := (ih f1 (Nat.lt_succ_self f1)).2.2.2.1
  have ihE := (ih f1 (Nat.lt_succ_self f1)).2.2.2.2.1
  have ihK := (ih f1 (Nat.lt_succ_self f1)).2.2.2.2.2.1
  have ihEV := (ih f1 (Nat.lt_succ_self f1)).2.2.2.2.2.2.1
  have ihMV := (ih f1 (Nat.lt_succ_self f1)).2.2.2.2.2.2.2
  refine ⟨?_, ?_, ?_, ?_, ?_, ?_, ?_, ?_⟩
  · -- parseVal
    intro input r h
    rw [parseVal] at h
    split at h
    · simp at h
    · rename_i r0 heq
      rw [parseVal_congr_ws (f1 + 1 + 1)
        (show skipWs input = skipWs ('n' :: 'u' :: 'l' :: 'l' :: r0) by
          rw [heq, skipWs_not_ws (by decide)]), parseVal_null_lit]
      exact h
    · rename_i r0 heq
      rw [parseVal_congr_ws (f1 + 1 + 1)
        (show skipWs input = skipWs ('t' :: 'r' :: 'u' :: 'e' :: r0) by
          rw [heq, skipWs_not_ws (by decide)]), parseVal_true_lit]
      exact h
    · rename_i r0 heq
      rw [parseVal_congr_ws (f1 + 1 + 1)
        (show skipWs input = skipWs ('f' :: 'a' :: 'l' :: 's' :: 'e' :: r0) by
          rw [heq, skipWs_not_ws (by decide)]), parseVal_false_lit]
      exact h
    · rename_i r0 heq
      rw [parseVal_congr_ws (f1 + 1 + 1)
        (show skipWs input = skipWs ('\"' :: r0) by
          rw [heq, skipWs_not_ws (by decide)]), parseVal_quote_lit]
      exact h
    · rename_i r0 heq
      rw [parseVal_congr_ws (f1 + 1 + 1)
        (show skipWs input = skipWs ('\x7b' :: r0) by
          rw [heq, skipWs_not_ws (by decide)]), parseVal_lbrace_lit]
      cases hob : parseObjBody f1 r0 with
      | none => rw [hob] at h; simp [objResult] at h
      | some p =>
        rw [hob] at h
        rw [ihO _ _ hob]
        exact h
    · rename_i r0 heq
      rw [parseVal_congr_ws (f1 + 1 + 1)
        (show skipWs input = skipWs ('[' :: r0) by
          rw [heq, skipWs_not_ws (by decide)]), parseVal_lbracket_lit]
      cases hab : parseArrBody f1 r0 with
      | none => rw [hab] at h; simp [arrResult] at h
      | some p =>
        rw [hab] at h
        rw [ihA _ _ hab]
        exact h
    · rename_i r0 heq
      rw [parseVal_congr_ws (f1 + 1 + 1)
        (show skipWs input = skipWs ('-' :: r0) by
          rw [heq, skipWs_not_ws (by decide)]), parseVal_neg_head]
      exact h
    · rename_i c r0 hne1 hne2 hne3 hne4 hne5 hne6 hne7 heq
      split at h
      · rename_i hd
        rw [parseVal_congr_ws (f1 + 1 + 1)
          (show skipWs input = skipWs (c :: r0) by
            rw [heq, skipWs_not_ws (wsChar_false_of_isDigit hd)]), parseVal_digit_head hd]
        exact h
      · simp at h
  · -- parseObjBody
    intro input r h
    rw [parseObjBody] at h
    split at h
    · rename_i r0 heq
      rw [parseObjBody_close heq]
      exact h
    · rename_i r0 heq
      rw [parseObjBody_quote heq]
      exact ihK _ _ h
    · simp at h
  · -- parseMembersRest
    intro input r h
    rw [parseMembersRest] at h
    split at h
    · rename_i r0 heq
      rw [parseMembersRest_close heq]
      exact h
    · rename_i r0 heq
      split at h
      · rename_i r1 heq2
        rw [parseMembersRest_comma heq heq2]
        exact ihK _ _ h
      · simp at h
    · simp at h
  · -- parseArrBody
    intro input r h
    cases hsk : skipWs input with
    | nil =>
      rw [parseArrBody, hsk] at h
      dsimp only at h
      rw [parseVal_ws_none hsk f1, parseElemValue_none] at h
      simp at h
    | cons c y =>
      by_cases hc : c = ']'
      · subst hc
        rw [parseArrBody_close hsk] at h
        rw [parseArrBody_close hsk]
        exact h
      · rw [parseArrBody_val hsk hc] at h
        rw [parseArrBody_val hsk hc]
        cases hv : parseVal f1 input with
        | none => rw [hv, parseElemValue_none] at h; simp at h
        | some p =>
          rw [hv] at h
          rw [ihV _ _ hv]
          exact ihEV _ _ h
  · -- parseElemsRest
    intro input r h
    rw [parseElemsRest] at h
    split at h
    · rename_i r0 heq
      rw [parseElemsRest_close heq]
      exact h
    · rename_i r0 heq
      rw [parseElemsRest_comma heq]
      cases hv : parseVal f1 r0 with
      | none => rw [hv, parseElemValue_none] at h; simp at h
      | some p =>
        rw [hv] at h
        rw [ihV _ _ hv]
        exact ihEV _ _ h
    · simp at h
  · -- parseMemberKey
    intro so r h
    cases so with
    | none => rw [parseMemberKey_none] at h; simp at h
    | some p =>
      obtain ⟨k, r2⟩ := p
      rw [parseMemberKey] at h
      split at h
      · rename_i r3 heq
        rw [parseMemberKey_colon heq]
        cases hv : parseVal f1 r3 with
        | none => rw [hv, parseMemberValue_none] at h; simp at h
        | some p2 =>
          rw [hv] at h
          rw [ihV _ _ hv]
          exact ihMV _ _ _ h
      · simp at h
  · -- parseElemValue
    intro vo r h
    cases vo with
    | none => rw [parseElemValue_none] at h; simp at h
    | some p =>
      obtain ⟨v, r2⟩ := p
      rw [parseElemValue_some] at h
      rw [parseElemValue_some]
      cases her : parseElemsRest f1 r2 with
      | none => rw [her] at h; simp [elemResult] at h
      | some p2 =>
        rw [her] at h
        rw [ihE _ _ her]
        exact h
  · -- parseMemberValue
    intro k vo r h
    cases vo with
    | none => rw [parseMemberValue_none] at h; simp at h
    | some p =>
      obtain ⟨v, r4⟩ := p
      rw [parseMemberValue_some] at h
      rw [parseMemberValue_some]
      cases hmr : parseMembersRest f1 r4 with
      | none => rw [hmr] at h; simp [memberResult] at h
      | some p2 =>
        rw [hmr] at h
        rw [ihM _ _ hmr]
        exact h

theorem parseVal_mono_le {f g : Nat} {input : List Char} {r : Json × List Char}
    (hfg : f ≤ g) (h : parseVal f input = some r) : parseVal g input = some r := by
  induction hfg with
  | refl => exact h
  | step h2 ih => exact (parse_mono _).1 _ _ ih

/-- At any fuel, the parser on serialized output either runs out of fuel or
consumes exactly the serialized value. -/
theorem parseVal_exact {f : Nat} {j : Json} {lvl : Nat} {tail : List Char}
    (hwf : jsonWF j = true) (hstop : numStop tail = true) :
    parseVal f (dumpVal j lvl ++ tail) = none ∨
      parseVal f (dumpVal j lvl ++ tail) = some (j, tail) := by
  cases h : parseVal f (dumpVal j lvl ++ tail) with
  | none => exact Or.inl rfl
  | some p =>
    right
    have h2 : parseVal (max f (fuelVal j)) (dumpVal j lvl ++ tail) = some p :=
      parseVal_mono_le (le_max_left _ _) h
    have h3 := (parse_complete (max f (fuelVal j))).1 j lvl tail hwf (le_max_right _ _) hstop
    rw [h2] at h3
    injection h3 with h4
    rw [h4]

theorem numStop_same_head (c : Char) (a b : List Char) :
    numStop (c :: a) = numStop (c :: b) := rfl

theorem parseMembersRest_comma_ws {f : Nat} {input r : List Char}
    (h : skipWs input = ',' :: r) (h2 : skipWs r = []) :
    parseMembersRest (f + 1) input = none := by
  rw [parseMembersRest, h]
  split
  · rename_i heq
    rw [List.cons.injEq] at heq
    exact absurd heq.1 (by decide)
  · rename_i r' heq
    rw [List.cons.injEq] at heq
    obtain ⟨-, h3⟩ := heq
    subst h3
    rw [h2]
  · rename_i hne
    exact absurd rfl (hne r)

theorem spanDigits_all {l : List Char} (h : ∀ c ∈ l, c.isDigit = true) :
    spanDigits l = (l, []) := by
  have h2 := spanDigits_append h (show notDigitHead [] = true from rfl)
  rw [List.append_nil] at h2
  exact h2

theorem parseNumBody_trunc {neg : Bool} {n : Nat} {p s : List Char}
    (h : dumpNat n = p ++ s) (hs : s ≠ []) :
    parseNumBody neg p = none ∨ ∃ v, parseNumBody neg p = some (v, []) := by
  cases p with
  | nil => exact Or.inl rfl
  | cons c p1 =>
    right
    have hdig : ∀ x ∈ c :: p1, x.isDigit = true := by
      intro x hx
      apply dumpNatAux_all_digits (Nat.lt_succ_self n)
      rw [show dumpNatAux (n + 1) n = dumpNat n from rfl, h]
      exact List.mem_append_left _ hx
    have hc : c.isDigit = true := hdig c (List.mem_cons_self _ _)
    have hp1 : ∀ x ∈ p1, x.isDigit = true := fun x hx => hdig x (List.mem_cons_of_mem _ hx)
    by_cases h0 : c = '0'
    · subst h0
      obtain ⟨hn0, ht⟩ := dumpNatAux_head_zero (Nat.lt_succ_self n)
        (show dumpNatAux (n + 1) n = '0' :: (p1 ++ s) from by
          rw [show dumpNatAux (n + 1) n = dumpNat n from rfl, h, List.cons_append])
      exact absurd (List.append_eq_nil.mp ht).2 hs
    · refine ⟨.num (if neg then -(Int.ofNat (digitsToNat (c.toNat - 48) p1))
        else Int.ofNat (digitsToNat (c.toNat - 48) p1)), ?_⟩
      rw [parseNumBody.eq_def]
      dsimp only
      rw [if_neg h0, if_pos hc, spanDigits_all hp1]

theorem dumpInt_trunc {n : Int} {p s : List Char} (h : dumpInt n = p ++ s)
    (hs : s ≠ []) :
    ∀ f, parseVal f p = none ∨ ∃ v, parseVal f p = some (v, []) := by
  intro f
  cases f with
  | zero => exact Or.inl rfl
  | succ f1 =>
    cases n with
    | ofNat m =>
      cases p with
      | nil => exact Or.inl (parseVal_nil _)
      | cons c p1 =>
        have h' : dumpNat m = (c :: p1) ++ s := h
        have hc : c.isDigit = true := by
          apply dumpNatAux_all_digits (Nat.lt_succ_self m)
          rw [show dumpNatAux (m + 1) m = dumpNat m from rfl, h']
          exact List.mem_append_left _ (List.mem_cons_self _ _)
        rw [parseVal_digit_head hc]
        exact parseNumBody_trunc h' hs
    | negSucc m =>
      cases p with
      | nil => exact Or.inl (parseVal_nil _)
      | cons a p1 =>
        have h' : '-' :: dumpNat (m + 1) = a :: (p1 ++ s) := h
        injection h' with e1 h2
        subst e1
        rw [parseVal_neg_head]
        exact parseNumBody_trunc h2 hs

/-! ### String-literal prefixes never parse (C9) -/

theorem parseEscape_trunc_u {n : Nat} :
    ∀ p q : List Char, 'u' :: hex4 n = p ++ q → q ≠ [] → parseEscape p = none := by
  intro p q h hq
  rw [hex4] at h
  cases p with
  | nil => rfl
  | cons a1 p1 =>
    injection h with e1 h
    subst e1
    cases p1 with
    | nil => rfl
    | cons a2 p2 =>
      injection h with e2 h
      subst e2
      cases p2 with
      | nil => rfl
      | cons a3 p3 =>
        injection h with e3 h
        subst e3
        cases p3 with
        | nil => rfl
        | cons a4 p4 =>
          injection h with e4 h
          subst e4
          cases p4 with
          | nil => rfl
          | cons a5 p5 =>
            injection h with e5 h
            exact absurd (List.append_eq_nil.mp h.symm).2 hq

theorem parseEscape_trunc_upair {n m : Nat} (hn : 0xd800 ≤ n ∧ n ≤ 0xdbff) :
    ∀ p q : List Char, 'u' :: (hex4 n ++ ('\\' :: 'u' :: hex4 m)) = p ++ q → q ≠ [] →
      parseEscape p = none := by
  intro p q h hq
  rw [hex4, hex4] at h
  simp only [List.cons_append, List.nil_append] at h
  cases p with
  | nil => rfl
  | cons a1 p1 =>
    injection h with e1 h
    subst e1
    cases p1 with
    | nil => rfl
    | cons a2 p2 =>
      injection h with e2 h
      subst e2
      cases p2 with
      | nil => rfl
      | cons a3 p3 =>
        injection h with e3 h
        subst e3
        cases p3 with
        | nil => rfl
        | cons a4 p4 =>
          injection h with e4 h
          subst e4
          cases p4 with
          | nil => rfl
          | cons a5 p5 =>
            injection h with e5 h
            subst e5
            cases p5 with
            | nil =>
              rw [parseEscape, parseHex4chars_hex4 (show n < 0x10000 by omega)]
              dsimp only
              rw [if_pos hn]
              rfl
            | cons a6 p6 =>
              injection h with e6 h
              subst e6
              cases p6 with
              | nil =>
                rw [parseEscape, parseHex4chars_hex4 (show n < 0x10000 by omega)]
                dsimp only
                rw [if_pos hn]
                rfl
              | cons a7 p7 =>
                injection h with e7 h
                subst e7
                cases p7 with
                | nil =>
                  rw [parseEscape, parseHex4chars_hex4 (show n < 0x10000 by omega)]
                  dsimp only
                  rw [if_pos hn]
                  rfl
                | cons a8 p8 =>
                  injection h with e8 h
                  subst e8
                  cases p8 with
                  | nil =>
                    rw [parseEscape, parseHex4chars_hex4 (show n < 0x10000 by omega)]
                    dsimp only
                    rw [if_pos hn]
                    rfl
                  | cons a9 p9 =>
                    injection h with e9 h
                    subst e9
                    cases p9 with
                    | nil =>
                      rw [parseEscape, parseHex4chars_hex4 (show n < 0x10000 by omega)]
                      dsimp only
                      rw [if_pos hn]
                      rfl
                    | cons a10 p10 =>
                      injection h with e10 h
                      subst e10
                      cases p10 with
                      | nil =>
                        rw [parseEscape, parseHex4chars_hex4 (show n < 0x10000 by omega)]
                        dsimp only
                        rw [if_pos hn]
                        rfl
                      | cons a11 p11 =>
                        injection h with e11 h
                        exact absurd (List.append_eq_nil.mp h.symm).2 hq

theorem parseTwoCharEsc_trunc {e : Char} :
    ∀ p q : List Char, ['\\', e] = p ++ q → q ≠ [] → parseStrBody p = none := by
  intro p q h hq
  cases p with
  | nil => rfl
  | cons a p1 =>
    injection h with e1 h2
    subst e1
    cases p1 with
    | nil => rfl
    | cons b p2 =>
      injection h2 with e2 h3
      exact absurd (List.append_eq_nil.mp h3.symm).2 hq

theorem parseUEsc_trunc {n : Nat} :
    ∀ p q : List Char, uEscape n = p ++ q → q ≠ [] → parseStrBody p = none := by
  intro p q h hq
  rw [uEscape] at h
  cases p with
  | nil => rfl
  | cons a p1 =>
    injection h with e1 h2
    subst e1
    exact parseEscape_trunc_u p1 q h2 hq

theorem parseUPair_trunc {n m : Nat} (hn : 0xd800 ≤ n ∧ n ≤ 0xdbff) :
    ∀ p q : List Char, uEscape n ++ uEscape m = p ++ q → q ≠ [] →
      parseStrBody p = none := by
  intro p q h hq
  rw [uEscape, uEscape] at h
  simp only [List.cons_append] at h
  cases p with
  | nil => rfl
  | cons a p1 =>
    injection h with e1 h2
    subst e1
    refine parseEscape_trunc_upair (m := m) hn p1 q ?_ hq
    exact h2

theorem escChar_trunc (c : Char) :
    ∀ p q : List Char, escChar c = p ++ q → q ≠ [] → parseStrBody p = none := by
  intro p q h hq
  by_cases h1 : c = '\"'
  · subst h1; exact parseTwoCharEsc_trunc p q h hq
  · by_cases h2 : c = '\\'
    · subst h2; exact parseTwoCharEsc_trunc p q h hq
    · by_cases h3 : c = '\n'
      · subst h3; exact parseTwoCharEsc_trunc p q h hq
      · by_cases h4 : c = '\r'
        · subst h4; exact parseTwoCharEsc_trunc p q h hq
        · by_cases h5 : c = '\t'
          · subst h5; exact parseTwoCharEsc_trunc p q h hq
          · by_cases h6 : c = '\x08'
            · subst h6; exact parseTwoCharEsc_trunc p q h hq
            · by_cases h7 : c = '\x0c'
              · subst h7; exact parseTwoCharEsc_trunc p q h hq
              · by_cases h8 : c.toNat < 0x20 ∨ 0x7e < c.toNat
                · have hb : (decide (c.toNat < 0x20) || decide (0x7e < c.toNat)) = true := by
                    simp only [Bool.or_eq_true, decide_eq_true_eq]
                    exact h8
                  have hesc : escChar c =
                      if c.toNat < 0x10000 then uEscape c.toNat
                      else uEscape (0xd800 + (c.toNat - 0x10000) / 0x400) ++
                        uEscape (0xdc00 + (c.toNat - 0x10000) % 0x400) := by
                    rw [escChar, if_neg h1, if_neg h2, if_neg h3, if_neg h4, if_neg h5,
                      if_neg h6, if_neg h7, hb]
                    simp
                  by_cases hlow : c.toNat < 0x10000
                  · rw [hesc, if_pos hlow] at h
                    exact parseUEsc_trunc p q h hq
                  · rw [hesc, if_neg hlow] at h
                    have hv := isValidChar_toNat c
                    have ht : 0x10000 ≤ c.toNat ∧ c.toNat < 0x110000 := by
                      rcases hv with h9 | h9 <;> omega
                    exact parseUPair_trunc (by omega) p q h hq
                · push_neg at h8
                  have hesc : escChar c = [c] := by
                    have hb : (decide (c.toNat < 0x20) || decide (0x7e < c.toNat)) = false := by
                      simp only [Bool.or_eq_false_iff, decide_eq_false_iff_not]
                      omega
                    rw [escChar, if_neg h1, if_neg h2, if_neg h3, if_neg h4, if_neg h5,
                      if_neg h6, if_neg h7, hb]
                    simp
                  rw [hesc] at h
                  cases p with
                  | nil => rfl
                  | cons a p1 =>
                    injection h with e1 h2
                    exact absurd (List.append_eq_nil.mp h2.symm).2 hq

/-- No strict prefix of an escaped string body plus its closing quote is an
acceptable string-literal body: truncating inside a string makes the parse
fail. -/
theorem parseStrBody_trunc : ∀ (k p q : List Char),
    escString k ++ ['\"'] = p ++ q → q ≠ [] → parseStrBody p = none := by
  intro k
  induction k with
  | nil =>
    intro p q h hq
    cases p with
    | nil => rfl
    | cons a p1 =>
      injection h with e1 h2
      exact absurd (List.append_eq_nil.mp h2.symm).2 hq
  | cons c t ih =>
    intro p q h hq
    rw [escString, List.append_assoc] at h
    rcases List.append_eq_append_iff.mp h with ⟨a2, ha1, ha2⟩ | ⟨c2, hc1, hc2⟩
    · subst ha1
      rw [parseStrBody_escChar, ih a2 q ha2 hq]
      rfl
    · by_cases hce : c2 = []
      · subst hce
        rw [List.append_nil] at hc1
        subst hc1
        rw [show escChar c = escChar c ++ [] from (List.append_nil _).symm,
          parseStrBody_escChar]
        rfl
      · exact escChar_trunc c p c2 hc1 hce

/-! ### Truncated serializer output never parses (C9) -/

/-- What follows the opening brace in `dumpVal (.obj kvs) lvl`. -/
def objBodyText : JObj → Nat → List Char
  | .nil, _ => ['\x7d']
  | .cons k v kvs, lvl =>
    '\n' :: (indentChars (lvl + 1) ++ dumpStr k ++ ':' :: ' ' ::
      dumpVal v (lvl + 1) ++ dumpMembersRest kvs (lvl + 1) ++
      '\n' :: (indentChars lvl ++ ['\x7d']))

/-- What follows the opening bracket in `dumpVal (.arr xs) lvl`. -/
def arrBodyText : JList → Nat → List Char
  | .nil, _ => [']']
  | .cons x xs, lvl =>
    '\n' :: (indentChars (lvl + 1) ++ dumpVal x (lvl + 1) ++
      dumpElemsRest xs (lvl + 1) ++ '\n' :: (indentChars lvl ++ [']']))

theorem dumpVal_obj_split (kvs : JObj) (lvl : Nat) :
    dumpVal (Json.obj kvs) lvl = '\x7b' :: objBodyText kvs lvl := by
  cases kvs <;> rfl

theorem dumpVal_arr_split (xs : JList) (lvl : Nat) :
    dumpVal (Json.arr xs) lvl = '[' :: arrBodyText xs lvl := by
  cases xs <;> rfl

theorem allWs_nl_indent (m : Nat) : allWs ('\n' :: indentChars m) = true := by
  rw [allWs, allWs_indentChars]
  rfl

theorem objBodyText_cons_eq (k : String) (v : Json) (kvs : JObj) (lvl : Nat) :
    objBodyText (JObj.cons k v kvs) lvl =
      ('\n' :: indentChars (lvl + 1)) ++ '\"' ::
        ((escString k.data ++ ['\"']) ++ (':' :: ' ' :: (dumpVal v (lvl + 1) ++
          (dumpMembersRest kvs (lvl + 1) ++
            '\n' :: (indentChars lvl ++ ['\x7d']))))) := by
  simp [objBodyText, dumpStr, List.append_assoc]

theorem arrBodyText_cons_eq (x : Json) (xs : JList) (lvl : Nat) :
    arrBodyText (JList.cons x xs) lvl =
      ('\n' :: indentChars (lvl + 1)) ++ (dumpVal x (lvl + 1) ++
        (dumpElemsRest xs (lvl + 1) ++ '\n' :: (indentChars lvl ++ [']']))) := by
  simp [arrBodyText, List.append_assoc]

theorem membersRestText_nil_eq (lvl lvl0 : Nat) :
    dumpMembersRest JObj.nil lvl ++ '\n' :: (indentChars lvl0 ++ ['\x7d']) =
      ('\n' :: indentChars lvl0) ++ ['\x7d'] := by
  simp [dumpMembersRest]

theorem membersRestText_cons_eq (k : String) (v : Json) (kvs : JObj) (lvl lvl0 : Nat) :
    dumpMembersRest (JObj.cons k v kvs) lvl ++ '\n' :: (indentChars lvl0 ++ ['\x7d']) =
      ',' :: (('\n' :: indentChars lvl) ++ '\"' ::
        ((escString k.data ++ ['\"']) ++ (':' :: ' ' :: (dumpVal v lvl ++
          (dumpMembersRest kvs lvl ++ '\n' :: (indentChars lvl0 ++ ['\x7d'])))))) := by
  simp [dumpMembersRest, dumpStr, List.append_assoc]

theorem elemsRestText_nil_eq (lvl lvl0 : Nat) :
    dumpElemsRest JList.nil lvl ++ '\n' :: (indentChars lvl0 ++ [']']) =
      ('\n' :: indentChars lvl0) ++ [']'] := by
  simp [dumpElemsRest]

theorem elemsRestText_cons_eq (x : Json) (xs : JList) (lvl lvl0 : Nat) :
    dumpElemsRest (JList.cons x xs) lvl ++ '\n' :: (indentChars lvl0 ++ [']']) =
      ',' :: (('\n' :: indentChars lvl) ++ (dumpVal x lvl ++
        (dumpElemsRest xs lvl ++ '\n' :: (indentChars lvl0 ++ [']'])))) := by
  simp [dumpElemsRest, List.append_assoc]

theorem prefix_ws_split {w rest p s : List Char} (hw : allWs w = true)
    (h : w ++ rest = p ++ s) (hs : s ≠ []) :
    skipWs p = [] ∨ ∃ p1, p = w ++ p1 ∧ rest = p1 ++ s := by
  rcases List.append_eq_append_iff.mp h with ⟨a2, ha1, ha2⟩ | ⟨c2, hc1, hc2⟩
  · exact Or.inr ⟨a2, ha1, ha2⟩
  · exact Or.inl (skipWs_allWs (allWs_left (hc1 ▸ hw)))

theorem prefix_str_split {S rest p s : List Char}
    (h : S ++ rest = p ++ s) (hs : s ≠ []) :
    (∃ c2, S = p ++ c2 ∧ c2 ≠ []) ∨ ∃ p1, p = S ++ p1 ∧ rest = p1 ++ s := by
  rcases List.append_eq_append_iff.mp h with ⟨a2, ha1, ha2⟩ | ⟨c2, hc1, hc2⟩
  · exact Or.inr ⟨a2, ha1, ha2⟩
  · by_cases hce : c2 = []
    · subst hce
      rw [List.append_nil] at hc1
      refine Or.inr ⟨[], by rw [hc1, List.append_nil], ?_⟩
      rw [List.nil_append]
      rw [List.nil_append] at hc2
      exact hc2.symm
    · exact Or.inl ⟨c2, hc1, hce⟩

theorem parseArrBody_ws {input : List Char} (h : skipWs input = []) :
    ∀ f, parseArrBody f input = none := by
  intro f
  cases f with
  | zero => rfl
  | succ f1 =>
    rw [parseArrBody, h]
    split
    · rename_i heq
      simp at heq
    · rw [parseVal_ws_none h f1, parseElemValue_none]

theorem parseObjBody_nil (f : Nat) : parseObjBody f [] = none :=
  parseObjBody_ws (show skipWs ([] : List Char) = [] from rfl) f

theorem parseMembersRest_nil (f : Nat) : parseMembersRest f [] = none :=
  parseMembersRest_ws (show skipWs ([] : List Char) = [] from rfl) f

theorem parseElemsRest_nil (f : Nat) : parseElemsRest f [] = none :=
  parseElemsRest_ws (show skipWs ([] : List Char) = [] from rfl) f

/-- Truncating serializer output anywhere makes the parse fail: a strict
prefix of a dumped value either fails outright or (for a truncated number
token only) consumes the whole prefix; strict prefixes of the container
body texts always fail their body parsers. -/
theorem dump_trunc : ∀ f : Nat,
    (∀ j lvl p s, jsonWF j = true → dumpVal j lvl = p ++ s → s ≠ [] →
      parseVal f p = none ∨ ∃ v, parseVal f p = some (v, [])) ∧
    (∀ kvs lvl p s, jobjWF kvs = true → objBodyText kvs lvl = p ++ s → s ≠ [] →
      parseObjBody f p = none) ∧
    (∀ xs lvl p s, jlistWF xs = true → arrBodyText xs lvl = p ++ s → s ≠ [] →
      parseArrBody f p = none) ∧
    (∀ kvs lvl lvl0 p s, jobjWF kvs = true →
      dumpMembersRest kvs lvl ++ '\n' :: (indentChars lvl0 ++ ['\x7d']) = p ++ s →
      s ≠ [] → parseMembersRest f p = none) ∧
    (∀ xs lvl lvl0 p s, jlistWF xs = true →
      dumpElemsRest xs lvl ++ '\n' :: (indentChars lvl0 ++ [']']) = p ++ s →
      s ≠ [] → parseElemsRest f p = none) ∧
    (∀ (k : String) v kvs lvl lvl0 p s, jsonWF v = true → jobjWF kvs = true →
      (escString k.data ++ ['\"']) ++ (':' :: ' ' :: (dumpVal v lvl ++
        (dumpMembersRest kvs lvl ++ '\n' :: (indentChars lvl0 ++ ['\x7d'])))) = p ++ s →
      s ≠ [] → parseMemberKey f (parseStrBody p) = none) := by
  intro f
  induction f using Nat.strong_induction_on with
  | _ f ih =>
  refine ⟨?_, ?_, ?_, ?_, ?_, ?_⟩
  · -- values
    intro j lvl p s hwf h hs
    cases f with
    | zero => exact Or.inl (parseVal_zero _)
    | succ f1 =>
    cases j with
    | null =>
      cases p with
      | nil => exact Or.inl (parseVal_nil _)
      | cons a1 p1 =>
        injection h with e1 h
        subst e1
        cases p1 with
        | nil => exact Or.inl rfl
        | cons a2 p2 =>
          injection h with e2 h
          subst e2
          cases p2 with
          | nil => exact Or.inl rfl
          | cons a3 p3 =>
            injection h with e3 h
            subst e3
            cases p3 with
            | nil => exact Or.inl rfl
            | cons a4 p4 =>
              injection h with e4 h
              exact absurd (List.append_eq_nil.mp h.symm).2 hs
    | bool b =>
      cases b with
      | true =>
        cases p with
        | nil => exact Or.inl (parseVal_nil _)
        | cons a1 p1 =>
          injection h with e1 h
          subst e1
          cases p1 with
          | nil => exact Or.inl rfl
          | cons a2 p2 =>
            injection h with e2 h
            subst e2
            cases p2 with
            | nil => exact Or.inl rfl
            | cons a3 p3 =>
              injection h with e3 h
              subst e3
              cases p3 with
              | nil => exact Or.inl rfl
              | cons a4 p4 =>
                injection h with e4 h
                exact absurd (List.append_eq_nil.mp h.symm).2 hs
      | false =>
        cases p with
        | nil => exact Or.inl (parseVal_nil _)
        | cons a1 p1 =>
          injection h with e1 h
          subst e1
          cases p1 with
          | nil => exact Or.inl rfl
          | cons a2 p2 =>
            injection h with e2 h
            subst e2
            cases p2 with
            | nil => exact Or.inl rfl
            | cons a3 p3 =>
              injection h with e3 h
              subst e3
              cases p3 with
              | nil => exact Or.inl rfl
              | cons a4 p4 =>
                injection h with e4 h
                subst e4
                cases p4 with
                | nil => exact Or.inl rfl
                | cons a5 p5 =>
                  injection h with e5 h
                  exact absurd (List.append_eq_nil.mp h.symm).2 hs
    | num n => exact dumpInt_trunc h hs _
    | str s0 =>
      have h' : '\"' :: (escString s0.data ++ ['\"']) = p ++ s := h
      cases p with
      | nil => exact Or.inl (parseVal_nil _)
      | cons a p1 =>
        injection h' with e1 h2
        subst e1
        left
        rw [parseVal_quote_lit, parseStrBody_trunc s0.data p1 s h2 hs]
        rfl
    | obj kvs =>
      rw [dumpVal_obj_split] at h
      cases p with
      | nil => exact Or.inl (parseVal_nil _)
      | cons a p1 =>
        injection h with e1 h2
        subst e1
        left
        rw [jsonWF, Bool.and_eq_true] at hwf
        rw [parseVal_lbrace_lit,
          (ih f1 (Nat.lt_succ_self f1)).2.1 kvs lvl p1 s hwf.2 h2 hs]
        rfl
    | arr xs =>
      rw [dumpVal_arr_split] at h
      cases p with
      | nil => exact Or.inl (parseVal_nil _)
      | cons a p1 =>
        injection h with e1 h2
        subst e1
        left
        rw [parseVal_lbracket_lit,
          (ih f1 (Nat.lt_succ_self f1)).2.2.1 xs lvl p1 s hwf h2 hs]
        rfl
  · -- object bodies
    intro kvs lvl p s hwf h hs
    cases f with
    | zero => exact parseObjBody_zero _
    | succ f1 =>
    cases kvs with
    | nil =>
      cases p with
      | nil => exact parseObjBody_nil _
      | cons a p1 =>
        injection h with e1 h2
        exact absurd (List.append_eq_nil.mp h2.symm).2 hs
    | cons k v kvs2 =>
      rw [objBodyText_cons_eq] at h
      rcases prefix_ws_split (allWs_nl_indent (lvl + 1)) h hs with hws | ⟨p1, hp, hrest⟩
      · exact parseObjBody_ws hws _
      · subst hp
        cases p1 with
        | nil =>
          refine parseObjBody_ws ?_ _
          rw [skipWs_append_of_allWs (allWs_nl_indent (lvl + 1))]
          rfl
        | cons b p2 =>
          injection hrest with e1 h2
          subst e1
          have hsk : skipWs (('\n' :: indentChars (lvl + 1)) ++ '\"' :: p2) =
              '\"' :: p2 := by
            rw [skipWs_append_of_allWs (allWs_nl_indent (lvl + 1)),
              skipWs_not_ws (by decide)]
          rw [parseObjBody_quote hsk]
          rw [jobjWF, Bool.and_eq_true] at hwf
          exact (ih f1 (Nat.lt_succ_self f1)).2.2.2.2.2 k v kvs2 (lvl + 1) lvl p2 s
            hwf.1 hwf.2 h2 hs
  · -- array bodies
    intro xs lvl p s hwf h hs
    cases f with
    | zero => exact parseArrBody_zero _
    | succ f1 =>
    cases xs with
    | nil =>
      cases p with
      | nil => exact parseArrBody_ws (show skipWs ([] : List Char) = [] from rfl) _
      | cons a p1 =>
        injection h with e1 h2
        exact absurd (List.append_eq_nil.mp h2.symm).2 hs
    | cons x xs2 =>
      rw [arrBodyText_cons_eq] at h
      rw [jlistWF, Bool.and_eq_true] at hwf
      rcases prefix_ws_split (allWs_nl_indent (lvl + 1)) h hs with hws | ⟨p1, hp, hrest⟩
      · exact parseArrBody_ws hws _
      · subst hp
        cases p1 with
        | nil =>
          refine parseArrBody_ws ?_ _
          rw [skipWs_append_of_allWs (allWs_nl_indent (lvl + 1))]
          rfl
        | cons b p2 =>
          obtain ⟨ch, y, hxy, hwsf, hnb, hnb2, hnb3⟩ := dumpVal_head x (lvl + 1)
          have hb : ch = b := by
            have htmp := hrest
            rw [hxy, List.cons_append] at htmp
            exact ((List.cons.injEq _ _ _ _).mp htmp).1
          subst hb
          have hsk : skipWs (('\n' :: indentChars (lvl + 1)) ++ ch :: p2) = ch :: p2 := by
            rw [skipWs_append_of_allWs (allWs_nl_indent (lvl + 1)), skipWs_not_ws hwsf]
          rw [parseArrBody_val hsk hnb]
          rw [parseVal_congr_ws f1 (show
            skipWs (('\n' :: indentChars (lvl + 1)) ++ ch :: p2) = skipWs (ch :: p2) by
              rw [hsk, skipWs_not_ws hwsf])]
          rcases prefix_str_split hrest hs with ⟨c3, hc3, hc4⟩ | ⟨p3, hp3, hrest3⟩
          · rcases (ih f1 (Nat.lt_succ_self f1)).1 x (lvl + 1) (ch :: p2) c3
                hwf.1 hc3 hc4 with hnone | ⟨v2, hsome⟩
            · rw [hnone, parseElemValue_none]
            · rw [hsome]
              cases f1 with
              | zero => exact parseElemValue_zero _
              | succ f2 =>
                rw [parseElemValue_some, parseElemsRest_nil]
                rfl
          · rw [hp3]
            have hstop : numStop p3 = true := by
              cases p3 with
              | nil => rfl
              | cons c3 p4 =>
                have h5 : dumpElemsRest xs2 (lvl + 1) ++
                    '\n' :: (indentChars lvl ++ [']']) = c3 :: (p4 ++ s) := hrest3
                calc numStop (c3 :: p4) = numStop (c3 :: (p4 ++ s)) :=
                      numStop_same_head _ _ _
                  _ = true := by rw [← h5]; exact numStop_elemsRest _ _ _
            rcases @parseVal_exact f1 x (lvl + 1) p3 hwf.1 hstop with hnone | hsome
            · rw [hnone, parseElemValue_none]
            · rw [hsome]
              cases f1 with
              | zero => exact parseElemValue_zero _
              | succ f2 =>
                rw [parseElemValue_some,
                  (ih f2 (by omega)).2.2.2.2.1 xs2 (lvl + 1) lvl p3 s hwf.2 hrest3 hs]
                rfl
  · -- remaining object members
    intro kvs lvl lvl0 p s hwf h hs
    cases f with
    | zero => exact parseMembersRest_zero _
    | succ f1 =>
    cases kvs with
    | nil =>
      rw [membersRestText_nil_eq] at h
      rcases prefix_ws_split (allWs_nl_indent lvl0) h hs with hws | ⟨p1, hp, hrest⟩
      · exact parseMembersRest_ws hws _
      · subst hp
        cases p1 with
        | nil =>
          refine parseMembersRest_ws ?_ _
          rw [skipWs_append_of_allWs (allWs_nl_indent lvl0)]
          rfl
        | cons b p2 =>
          injection hrest with e1 h2
          exact absurd (List.append_eq_nil.mp h2.symm).2 hs
    | cons k v kvs2 =>
      rw [membersRestText_cons_eq] at h
      rw [jobjWF, Bool.and_eq_true] at hwf
      cases p with
      | nil => exact parseMembersRest_nil _
      | cons a p1 =>
        injection h with e1 h2
        subst e1
        have hsk : skipWs (',' :: p1) = ',' :: p1 := skipWs_not_ws (by decide) _
        rcases prefix_ws_split (allWs_nl_indent lvl) h2 hs with hws | ⟨p2, hp2, hr2⟩
        · exact parseMembersRest_comma_ws hsk hws
        · subst hp2
          cases p2 with
          | nil =>
            refine parseMembersRest_comma_ws hsk ?_
            rw [skipWs_append_of_allWs (allWs_nl_indent lvl)]
            rfl
          | cons b p3 =>
            injection hr2 with e2 h3
            subst e2
            have hsk2 : skipWs (('\n' :: indentChars lvl) ++ '\"' :: p3) =
                '\"' :: p3 := by
              rw [skipWs_append_of_allWs (allWs_nl_indent lvl),
                skipWs_not_ws (by decide)]
            rw [parseMembersRest_comma hsk hsk2]
            exact (ih f1 (Nat.lt_succ_self f1)).2.2.2.2.2 k v kvs2 lvl lvl0 p3 s
              hwf.1 hwf.2 h3 hs
  · -- remaining array elements
    intro xs lvl lvl0 p s hwf h hs
    cases f with
    | zero => exact parseElemsRest_zero _
    | succ f1 =>
    cases xs with
    | nil =>
      rw [elemsRestText_nil_eq] at h
      rcases prefix_ws_split (allWs_nl_indent lvl0) h hs with hws | ⟨p1, hp, hrest⟩
      · exact parseElemsRest_ws hws _
      · subst hp
        cases p1 with
        | nil =>
          refine parseElemsRest_ws ?_ _
          rw [skipWs_append_of_allWs (allWs_nl_indent lvl0)]
          rfl
        | cons b p2 =>
          injection hrest with e1 h2
          exact absurd (List.append_eq_nil.mp h2.symm).2 hs
    | cons x xs2 =>
      rw [elemsRestText_cons_eq] at h
      rw [jlistWF, Bool.and_eq_true] at hwf
      cases p with
      | nil => exact parseElemsRest_nil _
      | cons a p1 =>
        injection h with e1 h2
        subst e1
        have hsk : skipWs (',' :: p1) = ',' :: p1 := skipWs_not_ws (by decide) _
        rw [parseElemsRest_comma hsk]
        rcases prefix_ws_split (allWs_nl_indent lvl) h2 hs with hws | ⟨p2, hp2, hr2⟩
        · rw [parseVal_ws_none hws f1, parseElemValue_none]
        · subst hp2
          rw [parseVal_congr_ws f1 (skipWs_append_of_allWs (allWs_nl_indent lvl) p2)]
          rcases prefix_str_split hr2 hs with ⟨c3, hc3, hc4⟩ | ⟨p3, hp3, hr3⟩
          · rcases (ih f1 (Nat.lt_succ_self f1)).1 x lvl p2 c3 hwf.1 hc3 hc4 with
              hnone | ⟨v2, hsome⟩
            · rw [hnone, parseElemValue_none]
            · rw [hsome]
              cases f1 with
              | zero => exact parseElemValue_zero _
              | succ f2 =>
                rw [parseElemValue_some, parseElemsRest_nil]
                rfl
          · subst hp3
            have hstop : numStop p3 = true := by
              cases p3 with
              | nil => rfl
              | cons c3 p4 =>
                have h5 : dumpElemsRest xs2 lvl ++
                    '\n' :: (indentChars lvl0 ++ [']']) = c3 :: (p4 ++ s) := hr3
                calc numStop (c3 :: p4) = numStop (c3 :: (p4 ++ s)) :=
                      numStop_same_head _ _ _
                  _ = true := by rw [← h5]; exact numStop_elemsRest _ _ _
            rcases @parseVal_exact f1 x lvl p3 hwf.1 hstop with hnone | hsome
            · rw [hnone, parseElemValue_none]
            · rw [hsome]
              cases f1 with
              | zero => exact parseElemValue_zero _
              | succ f2 =>
                rw [parseElemValue_some,
                  (ih f2 (by omega)).2.2.2.2.1 xs2 lvl lvl0 p3 s hwf.2 hr3 hs]
                rfl
  · -- a member from its key string onward
    intro k v kvs lvl lvl0 p s hv hkvs h hs
    rcases prefix_str_split h hs with ⟨c2, hc1, hc2⟩ | ⟨p1, hp1, hr1⟩
    · rw [parseStrBody_trunc k.data p c2 hc1 hc2, parseMemberKey_none]
    · subst hp1
      have hps : parseStrBody ((escString k.data ++ ['\"']) ++ p1) =
          some (k.data, p1) := by
        rw [List.append_assoc]
        exact parseStrBody_escString k.data p1
      rw [hps]
      cases f with
      | zero => exact parseMemberKey_zero _
      | succ f2 =>
      cases p1 with
      | nil => exact parseMemberKey_ws (show skipWs ([] : List Char) = [] from rfl) _
      | cons c1 p2 =>
        injection hr1 with e1 h2
        subst e1
        rw [parseMemberKey_colon (skipWs_not_ws (by decide) _)]
        cases p2 with
        | nil => rw [parseVal_nil, parseMemberValue_none]
        | cons c2 p3 =>
          injection h2 with e2 h3
          subst e2
          rw [parseVal_congr_ws f2 (skipWs_ws_head (by decide) p3)]
          rcases prefix_str_split h3 hs with ⟨c3, hc3, hc4⟩ | ⟨p4, hp4, hr4⟩
          · rcases (ih f2 (Nat.lt_succ_self f2)).1 v lvl p3 c3 hv hc3 hc4 with
              hnone | ⟨v2, hsome⟩
            · rw [hnone, parseMemberValue_none]
            · rw [hsome]
              cases f2 with
              | zero => exact parseMemberValue_zero _ _
              | succ f3 =>
                rw [parseMemberValue_some, parseMembersRest_nil]
                rfl
          · subst hp4
            have hstop : numStop p4 = true := by
              cases p4 with
              | nil => rfl
              | cons c4 p5 =>
                have h5 : dumpMembersRest kvs lvl ++
                    '\n' :: (indentChars lvl0 ++ ['\x7d']) = c4 :: (p5 ++ s) := hr4
                calc numStop (c4 :: p5) = numStop (c4 :: (p5 ++ s)) :=
                      numStop_same_head _ _ _
                  _ = true := by rw [← h5]; exact numStop_membersRest _ _ _
            rcases @parseVal_exact f2 v lvl p4 hv hstop with hnone | hsome
            · rw [hnone, parseMemberValue_none]
            · rw [hsome]
              cases f2 with
              | zero => exact parseMemberValue_zero _ _
              | succ f3 =>
                rw [parseMemberValue_some,
                  (ih f3 (by omega)).2.2.2.1 kvs lvl lvl0 p4 s hkvs hr4 hs]
                rfl

/-- A strict prefix of a dumped top-level JSON object never parses: the
opening brace is consumed only when the matching close brace arrives, which
is the last character of the dump. -/
theorem loads_trunc_obj {kvs : JObj} (hwf : jsonWF (Json.obj kvs) = true)
    {p s : List Char} (h : dumpVal (Json.obj kvs) 0 = p ++ s) (hs : s ≠ []) :
    loads p = none := by
  rw [jsonWF, Bool.and_eq_true] at hwf
  rw [dumpVal_obj_split] at h
  cases p with
  | nil => rfl
  | cons a p1 =>
    injection h with e1 h2
    subst e1
    rw [loads, show ('\x7b' :: p1).length + 1 = p1.length + 1 + 1 from by simp,
      parseVal_lbrace_lit,
      (dump_trunc (p1.length + 1)).2.1 kvs 0 p1 s hwf.2 h2 hs]
    rfl

/-- C9: atomic save, under the crash model in which a crash mid-write
leaves the store file holding a strict prefix of the bytes the save was
writing.  `save_history` rewrites the whole store as one unit, and no
strict prefix of what it writes is parseable JSON (`loads` raises), so a
load after a mid-write crash can only degrade to the empty history: it
never yields valid-but-wrong data. -/
theorem C9_crash_prefix_safe (messages : Json) (fs : FileState) (c p s : List Char)
    (hm : jsonWF messages = true) (hw : Writable fs)
    (hsave : save_history messages fs = .file c)
    (hsplit : c = p ++ s) (hs : s ≠ []) :
    loads p = none ∧ load_history (.file p) = Json.arr .nil := by
  subst hsplit
  cases hw with
  | absent =>
    rw [save_history] at hsave
    injection hsave with hc
    have hwf : jsonWF (Json.obj (JObj.setKey .nil USER_ID messages)) = true := by
      show jsonWF (Json.obj (JObj.cons USER_ID messages .nil)) = true
      rw [jsonWF, Bool.and_eq_true]
      refine ⟨rfl, ?_⟩
      rw [jobjWF, Bool.and_eq_true]
      exact ⟨hm, rfl⟩
    have hnone := loads_trunc_obj hwf hc hs
    refine ⟨hnone, ?_⟩
    rw [load_history, load_history_attempt, hnone]
  | validObj c0 kvs hld =>
    rw [save_history, hld] at hsave
    injection hsave with hc
    have hwf0 := loads_wf hld
    rw [jsonWF, Bool.and_eq_true] at hwf0
    have hwf : jsonWF (Json.obj (kvs.setKey USER_ID messages)) = true := by
      rw [jsonWF, Bool.and_eq_true]
      exact ⟨keysUnique_setKey _ _ hwf0.1, jobjWF_setKey hwf0.2 hm⟩
    have hnone := loads_trunc_obj hwf hc hs
    refine ⟨hnone, ?_⟩
    rw [load_history, load_history_attempt, hnone]

theorem C9_crash_prefix_safe_witness :
    loads ['\x7b'] = none ∧ load_history (.file ['\x7b']) = Json.arr .nil :=
  C9_crash_prefix_safe (Json.arr .nil) .absent
    (dumpVal (Json.obj (JObj.setKey .nil USER_ID (Json.arr .nil))) 0)
    ['\x7b']
    ((dumpVal (Json.obj (JObj.setKey .nil USER_ID (Json.arr .nil))) 0).drop 1)
    rfl Writable.absent rfl (by decide) (by decide)
